import Mathlib

/-!
A shallow embedding of `dns.go`.

The development embeds the wire-format codec of the DNS server
(`getFlags`, `getQuestionDomain`, `getZone`, `getRecs`, `buildQuestion`,
`rectoBytes`, `buildResponse`) as executable Lean functions and proves
properties of them.

Modelling conventions.

* A byte is a `Nat` below 256; conversions `byte(..)`, `uint16(..)`,
  `uint32(..)` are explicit remainders.
* A Go string is a Lean `String`: the sequence of its code points.  Every
  string the program builds is valid UTF-8 (`string(b)` of a byte is the
  UTF-8 encoding of the code point `b`), so `len(s)` is `String.utf8ByteSize`
  and `for _, c := range s` visits `s.data`.
* A Go byte slice is its elements together with the spare capacity of
  its backing array (`Slice`); a slice expression may reach into the spare
  capacity, an index expression may not.
* A run-time panic (index or slice out of range, failed type assertion) is
  `none`.
* `loadZones()` reads the zone files from disk; its result is the parameter
  `zones` of `getZone`, `getRecs` and `buildResponse` (the files do not change
  while one request is served).
-/

namespace DnsServer

/-! ## Go values -/

/-- A Go byte slice: the elements `s[0], .., s[len-1]` and the bytes of the
backing array between `len(s)` and `cap(s)`. -/
structure Slice where
  elems : List Nat
  spare : List Nat
deriving Repr, DecidableEq

/-- The backing array seen from the first element of the slice. -/
def Slice.arr (s : Slice) : List Nat := s.elems ++ s.spare

/-- Go `len(s)`. -/
def Slice.len (s : Slice) : Nat := s.elems.length

/-- Go `cap(s)`. -/
def Slice.cap (s : Slice) : Nat := s.elems.length + s.spare.length

/-- Go `s[lo:hi]`: panics unless `lo <= hi <= cap(s)`. -/
def Slice.slice (s : Slice) (lo hi : Nat) : Option Slice :=
  if lo ≤ hi ∧ hi ≤ s.cap then
    some { elems := (s.arr.drop lo).take (hi - lo), spare := s.arr.drop hi }
  else none

/-- Go `s[lo:]`: the upper bound is `len(s)`, so it panics unless
`lo <= len(s)`. -/
def Slice.sliceFrom (s : Slice) (lo : Nat) : Option Slice :=
  if lo ≤ s.len then some { elems := s.elems.drop lo, spare := s.spare } else none

/-- Go `s[i]`: panics unless `i < len(s)`. -/
def Slice.index (s : Slice) (i : Nat) : Option Nat := s.elems.get? i

/-- A slice whose capacity equals its length. -/
def Slice.ofList (bs : List Nat) : Slice := { elems := bs, spare := [] }

/-- A dynamically typed Go value (`interface{}`), with the dynamic types that
occur in a zone: what `encoding/json` produces when decoding into
`map[string]interface{}` (nil, bool, float64, string, `[]interface{}`,
`map[string]interface{}`), and `[]map[string]interface{}`, the type
`getRecs` asserts.  A `float64` is represented by the result of the
conversion `uint32(f)`, the only operation the program applies to it.  A Go
map is an association list read with `List.lookup`. -/
inductive GoVal where
  | nil : GoVal
  | bool (b : Bool) : GoVal
  | float64 (u : Nat) : GoVal
  | str (s : String) : GoVal
  | slice (xs : List GoVal) : GoVal
  | map (kv : List (String × GoVal)) : GoVal
  | recs (rs : List (List (String × GoVal))) : GoVal

/-- Go `map[string]interface{}`. -/
abbrev GoMap := List (String × GoVal)

/-- The result of `loadZones`: `map[string]map[string]interface{}`. -/
abbrev ZoneStore := List (String × GoMap)

/-- Go `binary.BigEndian.PutUint16`. -/
def putUint16 (v : Nat) : List Nat := [v / 256 % 256, v % 256]

/-- Go `binary.BigEndian.PutUint32`. -/
def putUint32 (v : Nat) : List Nat :=
  [v / 16777216 % 256, v / 65536 % 256, v / 256 % 256, v % 256]

/-- Go `string(b)` for a byte `b`: the string holding the code point `b`. -/
def stringOfByte (b : Nat) : String := String.singleton (Char.ofNat b)

/-! ## `getFlags` -/

/-- Source `getFlags`. -/
def getFlags (flags : Slice) : Option (List Nat) := do
  let QR := 0x80
  let f0 ← flags.index 0
  let OPCODE := f0 >>> 3
  let AA := 0x04
  let TC := 0x02
  let RD := 0x01
  let RA := 0x80
  let Z := 0
  let RCODE := 0
  pure [QR ||| OPCODE ||| AA ||| TC ||| RD, RA ||| Z ||| RCODE]

/-! ## `getQuestionDomain` -/

/-- The local variables of the loop of `getQuestionDomain`. -/
structure QState where
  state : Nat
  expectedLength : Nat
  domainString : String
  domainParts : List String
  x : Nat
  y : Nat
deriving Repr, DecidableEq

/-- The initial values of the locals of `getQuestionDomain`. -/
def QState.init : QState :=
  { state := 0, expectedLength := 0, domainString := "", domainParts := [], x := 0, y := 0 }

/-- The loop `for _, b := range data` of `getQuestionDomain`; the `break`
returns without running `y++`. -/
def questionLoop : List Nat → QState → QState
  | [], s => s
  | b :: rest, s =>
    if s.state = 1 then
      let s1 := if b ≠ 0 then { s with domainString := s.domainString ++ stringOfByte b } else s
      let s2 := { s1 with x := s1.x + 1 }
      let s3 :=
        if s2.x = s2.expectedLength then
          { s2 with domainParts := s2.domainParts ++ [s2.domainString],
                    domainString := "", state := 0, x := 0 }
        else s2
      if b = 0 then
        { s3 with domainParts := s3.domainParts ++ [s3.domainString] }
      else questionLoop rest { s3 with y := s3.y + 1 }
    else
      questionLoop rest { s with state := 1, expectedLength := b, y := s.y + 1 }

/-- Source `getQuestionDomain`: the labels and the two bytes `data[y:y+2]`. -/
def getQuestionDomain (data : Slice) : Option (List String × List Nat) := do
  let s := questionLoop data.elems QState.init
  let questionType ← data.slice s.y (s.y + 2)
  pure (s.domainParts, questionType.elems)

/-! ## `getZone` and `getRecs` -/

/-- Source `getZone`: the zone keyed by the labels joined with `"."`; a
missing key gives the nil map, here `none`. -/
def getZone (zones : ZoneStore) (domain : List String) : Option GoMap :=
  let zoneName := String.intercalate "." domain
  zones.lookup zoneName

/-- Source `getRecs`.  The comma-ok type assertion
`zone[qt].([]map[string]interface{})` succeeds exactly on a `GoVal.recs`. -/
def getRecs (zones : ZoneStore) (data : Slice) :
    Option (List GoMap × String × List String) := do
  let (domain, questionType) ← getQuestionDomain data
  let qt := if questionType = [0x00, 0x01] then "a" else ""
  match getZone zones domain with
  | some zone =>
    match zone.lookup qt with
    | some (GoVal.recs records) => pure (records, qt, domain)
    | _ => pure ([], "", [])
  | none => pure ([], "", [])

/-! ## `buildQuestion` -/

/-- Source `buildQuestion`: `len(part)` is the byte length of the string and
`range part` visits its code points, each truncated by `byte(char)`. -/
def buildQuestion (domainName : List String) (rectype : String) : List Nat :=
  let qbytes := domainName.foldl
    (fun qbytes part =>
      part.data.foldl (fun qbytes char => qbytes ++ [char.toNat % 256])
        (qbytes ++ [part.utf8ByteSize % 256]))
    []
  let qbytes := if rectype = "a" then qbytes ++ [0x00, 0x01] else qbytes
  qbytes ++ [0x00, 0x01]

/-! ## `rectoBytes` and the library functions it calls -/

/-- Go `strings.Split(s, ".")` on the characters of `s`: the pieces between
the dots, one more than there are dots. -/
def splitDot : List Char → List (List Char)
  | [] => [[]]
  | c :: cs =>
    if c = '.' then [] :: splitDot cs
    else
      match splitDot cs with
      | [] => [[c]]
      | p :: ps => (c :: p) :: ps

/-- Go `strings.Split(recval, ".")`. -/
def stringsSplit (s : String) : List String := (splitDot s.data).map String.mk

/-- The digit loop of Go `strconv.Atoi` on its fast path (a string shorter
than 19 bytes): `none` is the syntax error. -/
def atoiFast : List Char → Nat → Option Nat
  | [], n => some n
  | c :: cs, n =>
    if 48 ≤ c.toNat ∧ c.toNat ≤ 57 then atoiFast cs (n * 10 + (c.toNat - 48)) else none

/-- Outcome of the digit loop of Go `strconv.ParseUint`. -/
inductive ParseOutcome where
  | syntaxError : ParseOutcome
  | rangeError : ParseOutcome
  | value (n : Nat) : ParseOutcome
deriving Repr, DecidableEq

/-- The digit loop of Go `strconv.ParseUint(s, 10, 64)`: it stops at the first
character that is no digit, or at the first overflow of 64 bits. -/
def parseUintLoop : List Char → Nat → ParseOutcome
  | [], n => ParseOutcome.value n
  | c :: cs, n =>
    if 48 ≤ c.toNat ∧ c.toNat ≤ 57 then
      if n ≥ 1844674407370955162 then ParseOutcome.rangeError
      else if n * 10 + (c.toNat - 48) > 18446744073709551615 then ParseOutcome.rangeError
      else parseUintLoop cs (n * 10 + (c.toNat - 48))
    else ParseOutcome.syntaxError

/-- Go `strconv.ParseInt(s, 10, 0)` with a 64-bit `int`, its error dropped:
0 on a syntax error, the nearest bound on a range error. -/
def parseInt (s : List Char) : Int :=
  match s with
  | [] => 0
  | c :: cs =>
    let neg := decide (c = '-')
    let body := if c = '+' ∨ c = '-' then cs else c :: cs
    let r := if body = [] then ParseOutcome.syntaxError else parseUintLoop body 0
    match r with
    | ParseOutcome.syntaxError => 0
    | ParseOutcome.rangeError => if neg then -9223372036854775808 else 9223372036854775807
    | ParseOutcome.value un =>
      if !neg ∧ un ≥ 9223372036854775808 then 9223372036854775807
      else if neg ∧ un > 9223372036854775808 then -9223372036854775808
      else if neg then -(un : Int) else (un : Int)

/-- Go `strconv.Atoi(part)` with a 64-bit `int`, its error dropped
(`value, _ := strconv.Atoi(part)`). -/
def atoi (part : String) : Int :=
  if 0 < part.utf8ByteSize ∧ part.utf8ByteSize < 19 then
    match part.data with
    | [] => 0
    | c :: cs =>
      let body := if c = '-' ∨ c = '+' then cs else c :: cs
      if body = [] then 0
      else
        match atoiFast body 0 with
        | none => 0
        | some n => if c = '-' then -(n : Int) else (n : Int)
  else parseInt part.data

/-- Go `byte(value)` for an `int`: the low eight bits. -/
def byteOfInt (value : Int) : Nat := (value % 256).toNat

/-- Source `rectoBytes`; `recttl` is a `uint32`. -/
def rectoBytes (rectype : String) (recttl : Nat) (recval : String) : List Nat :=
  let rbytes := [0xc0, 0x0c]
  let rbytes := if rectype = "a" then rbytes ++ [0x00, 0x01] else rbytes
  let rbytes := rbytes ++ [0x00, 0x01]
  let ttlBytes := putUint32 recttl
  let rbytes := rbytes ++ ttlBytes
  if rectype = "a" then
    (stringsSplit recval).foldl (fun rbytes part => rbytes ++ [byteOfInt (atoi part)]) rbytes
  else rbytes

/-! ## `buildResponse` -/

/-- The request buffer and `dnsHeader` during the appends that build the
header.  `dnsHeader` starts as `data[:2]`, which keeps the capacity of
`data`, so `append` writes into the request buffer while the result fits and
moves to a fresh array afterwards. -/
structure HeaderState where
  buf : List Nat
  hdr : List Nat
  shared : Bool
deriving Repr, DecidableEq

/-- One `dnsHeader = append(dnsHeader, xs...)`. -/
def HeaderState.append (st : HeaderState) (xs : List Nat) : HeaderState :=
  let hdr := st.hdr ++ xs
  if st.shared = true ∧ hdr.length ≤ st.buf.length then
    { buf := hdr ++ st.buf.drop hdr.length, hdr := hdr, shared := true }
  else { buf := st.buf, hdr := hdr, shared := false }

/-- The arguments `uint32(record["ttl"].(float64))` and
`record["value"].(string)` of the call of `rectoBytes`; either type assertion
panics on a missing key or on another dynamic type. -/
def recordFields (record : GoMap) : Option (Nat × String) :=
  match record.lookup "ttl" with
  | some (GoVal.float64 u) =>
    match record.lookup "value" with
    | some (GoVal.str v) => some (u % 4294967296, v)
    | _ => none
  | _ => none

/-- The loop `for _, record := range records` of `buildResponse`. -/
def buildBody (rectype : String) : List GoMap → List Nat → Option (List Nat)
  | [], dnsBody => some dnsBody
  | record :: rest, dnsBody => do
    let (ttl, value) ← recordFields record
    buildBody rectype rest (dnsBody ++ rectoBytes rectype ttl value)

/-- The five appends of `buildResponse` that build `dnsHeader`. -/
def headerAppends (data : Slice) (transactionID flags anCount : List Nat) : HeaderState :=
  let qdCount := [0x00, 0x01]
  let nsCount := [0x00, 0x00]
  let arCount := [0x00, 0x00]
  let st : HeaderState := { buf := data.arr, hdr := transactionID, shared := true }
  let st := st.append flags
  let st := st.append qdCount
  let st := st.append anCount
  let st := st.append nsCount
  st.append arCount

/-- Source `buildResponse`.  The second `getRecs(data[12:])` reads the request
buffer as the header appends left it. -/
def buildResponse (zones : ZoneStore) (data : Slice) : Option (List Nat) := do
  let transactionID ← data.slice 0 2
  let flagBytes ← data.slice 2 4
  let flags ← getFlags flagBytes
  let question ← data.sliceFrom 12
  let (records, _, _) ← getRecs zones question
  let anCount := putUint16 (records.length % 65536)
  let st := headerAppends data transactionID.elems flags anCount
  let dnsHeader := st.hdr
  let data : Slice := { elems := st.buf.take data.len, spare := st.buf.drop data.len }
  let question ← data.sliceFrom 12
  let (records, rectype, domainName) ← getRecs zones question
  let dnsQuestion := buildQuestion domainName rectype
  let dnsBody ← buildBody rectype records []
  pure (dnsHeader ++ (dnsQuestion ++ dnsBody))

/-! ## Well-formed questions -/

/-- The wire form of a sequence of labels: each label is its length byte
followed by its content bytes (no terminator). -/
def encodeLabels : List (List Nat) → List Nat
  | [] => []
  | l :: ls => (l.length :: l) ++ encodeLabels ls

/-- A well-formed label: 1 to 63 content bytes, none of them zero. -/
def LabelOk (l : List Nat) : Prop :=
  1 ≤ l.length ∧ l.length ≤ 63 ∧ ∀ b ∈ l, b ≠ 0 ∧ b < 256

instance (l : List Nat) : Decidable (LabelOk l) := by
  unfold LabelOk; infer_instance

/-- A well-formed question section: the encoded labels, the `00` terminator,
two type bytes and two class bytes. -/
def wireQuestion (labels : List (List Nat)) (t1 t2 c1 c2 : Nat) : List Nat :=
  encodeLabels labels ++ [0, t1, t2, c1, c2]

/-- The string `getQuestionDomain` builds from the content bytes of a label:
one code point per byte. -/
def labelString (l : List Nat) : String := String.mk (l.map Char.ofNat)

/-- The concatenation of a sequence of byte strings. -/
def concatBytes : List (List Nat) → List Nat
  | [] => []
  | bs :: rest => bs ++ concatBytes rest

/-- The fields of every record of a sequence, in order; `none` when a record
lacks a `float64` ttl or a `string` value. -/
def recordsFields : List GoMap → Option (List (Nat × String))
  | [] => some []
  | record :: rest =>
    match recordFields record, recordsFields rest with
    | some f, some fs => some (f :: fs)
    | _, _ => none

/-- A value of a zone is well typed when, if it is a record slice, each of its
records has a `float64` ttl and a `string` value.  Every value decoded from
JSON is well typed: it is no record slice. -/
def valTyped : GoVal → Bool
  | GoVal.recs rs => rs.all fun r => (recordFields r).isSome
  | _ => true

/-- A zone store all of whose record slices hold well-typed records. -/
def storeTyped (zones : ZoneStore) : Bool :=
  zones.all fun z => z.2.all fun kv => valTyped kv.2

/-- A request: twelve header bytes, a question section, and the spare
capacity of the receive buffer. -/
def mkRequest (hdr question spare : List Nat) : Slice :=
  { elems := hdr ++ question, spare := spare }

/-- The dotted-decimal text `a.b.c.d` of four octets. -/
def dottedDecimal (a b c d : Nat) : String :=
  toString a ++ "." ++ toString b ++ "." ++ toString c ++ "." ++ toString d

/-- An address record: its ttl and the four octets of its address. -/
structure ARecord where
  ttl : Nat
  a : Nat
  b : Nat
  c : Nat
  d : Nat
deriving Repr, DecidableEq

/-- The Go map `r` is the address record `x`: a `float64` ttl and the
dotted-decimal text of four octets as its value. -/
def IsARecord (r : GoMap) (x : ARecord) : Prop :=
  r.lookup "ttl" = some (GoVal.float64 x.ttl) ∧
  r.lookup "value" = some (GoVal.str (dottedDecimal x.a x.b x.c x.d)) ∧
  x.a < 256 ∧ x.b < 256 ∧ x.c < 256 ∧ x.d < 256

/-- The 14 bytes of the answer for an address record. -/
def answerBytes (x : ARecord) : List Nat :=
  [0xc0, 0x0c, 0x00, 0x01, 0x00, 0x01] ++ putUint32 (x.ttl % 4294967296) ++ [x.a, x.b, x.c, x.d]

/-- The tag `getRecs` resolves the type bytes to. -/
def tagOf (questionType : List Nat) : String := if questionType = [0x00, 0x01] then "a" else ""

/-- The bytes `buildQuestion` emits for one label: the byte length of the
string, then the low byte of each code point. -/
def encodePart (part : String) : List Nat :=
  (part.utf8ByteSize % 256) :: part.data.map fun char => char.toNat % 256

/-- A label given as a string: 1 to 63 characters, each an ASCII character
other than NUL. -/
def AsciiLabel (s : String) : Prop :=
  1 ≤ s.length ∧ s.length ≤ 63 ∧ ∀ c ∈ s.data, c.toNat ≠ 0 ∧ c.toNat < 128

instance (s : String) : Decidable (AsciiLabel s) := by
  unfold AsciiLabel; infer_instance

/-- The code points of a string. -/
def labelBytes (s : String) : List Nat := s.data.map Char.toNat

/-! ## Concrete inputs -/

/-- A request header: id `12 34`, flags `01 00`, one question, no other
records. -/
def exampleHeader : List Nat := [0x12, 0x34, 0x01, 0x00, 0x00, 0x01, 0, 0, 0, 0, 0, 0]

/-- The content bytes of the labels `example` and `com`. -/
def exampleLabels : List (List Nat) :=
  [[101, 120, 97, 109, 112, 108, 101], [99, 111, 109]]

/-- The request `12 34 01 00 00 01 00 00 00 00 00 00 | 07 example 03 com 00 |
00 01 | 00 01`, in a buffer without spare capacity. -/
def exampleRequest : Slice := mkRequest exampleHeader (wireQuestion exampleLabels 0 1 0 1) []

/-- The record `ttl 60, value "10.0.0.1"` as a Go map. -/
def exampleRecord : GoMap := [("ttl", GoVal.float64 60), ("value", GoVal.str "10.0.0.1")]

/-- The zone file `"$origin":"example.com","a":[ttl 60, value "10.0.0.1"]` as
`loadZones` decodes it: keyed by its origin, the array a `[]interface{}`. -/
def zonesJson : ZoneStore :=
  [("example.com",
    [("$origin", GoVal.str "example.com"), ("a", GoVal.slice [GoVal.map exampleRecord])])]

/-- The zone file `"$origin":"example.com.","a":[ttl 60, value "10.0.0.1"]`
(the origin written with its trailing dot) as `loadZones` decodes it: keyed by
its origin, the array a `[]interface{}`. -/
def zonesJsonDot : ZoneStore :=
  [("example.com.",
    [("$origin", GoVal.str "example.com."), ("a", GoVal.slice [GoVal.map exampleRecord])])]

/-- The zone of `example.com` keyed by the origin with its trailing dot,
`example.com.`, with the records held as a record slice
`[]map[string]interface{}`. -/
def zonesDot : ZoneStore :=
  [("example.com.", [("$origin", GoVal.str "example.com."), ("a", GoVal.recs [exampleRecord])])]

/-- A zone keyed `example.com.` whose `a` entry is an empty record slice. -/
def zonesEmptyA : ZoneStore := [("example.com.", [("a", GoVal.recs [])])]

/-- The value of a string of decimal digits. -/
def decVal (cs : List Char) : Nat := cs.foldl (fun n c => n * 10 + (c.toNat - 48)) 0

/-- The characters `s` are a decimal text of the octet `a`: a non-empty string
of digits `0` to `9` whose value is `a`, at most 255. -/
def IsOctetText (s : List Char) (a : Nat) : Prop :=
  s ≠ [] ∧ (∀ c ∈ s, 48 ≤ c.toNat ∧ c.toNat ≤ 57) ∧ decVal s = a ∧ a < 256

instance (s : List Char) (a : Nat) : Decidable (IsOctetText s a) := by
  unfold IsOctetText; infer_instance

mutual
/-- A value as `encoding/json` decodes it into `interface{}`: nil, a bool, a
`float64`, a string, a `[]interface{}` of such values or a
`map[string]interface{}` of such values; never a record slice. -/
def GoVal.isJson : GoVal → Bool
  | GoVal.nil => true
  | GoVal.bool _ => true
  | GoVal.float64 _ => true
  | GoVal.str _ => true
  | GoVal.slice xs => isJsonList xs
  | GoVal.map kv => isJsonFields kv
  | GoVal.recs _ => false
/-- The elements of a decoded JSON array. -/
def isJsonList : List GoVal → Bool
  | [] => true
  | x :: xs => x.isJson && isJsonList xs
/-- The fields of a decoded JSON object. -/
def isJsonFields : List (String × GoVal) → Bool
  | [] => true
  | (_, v) :: rest => v.isJson && isJsonFields rest
end

/-- A zone store as `loadZones` produces it: every zone is a JSON object
decoded into `map[string]interface{}`. -/
def storeJson (zones : ZoneStore) : Bool := zones.all fun z => isJsonFields z.2

/-- Eight labels of the byte `a`, seven of 63 bytes and one of 46: their wire
form has 495 bytes, so that with the terminator, the type and the class the
question section fills the 500 bytes left of a 512-byte datagram. -/
def longLabels : List (List Nat) :=
  List.replicate 7 (List.replicate 63 97) ++ [List.replicate 46 97]

/-- A zone store holding one zone under the key `.`. -/
def zonesRoot : ZoneStore := [(".", [("a", GoVal.recs [exampleRecord])])]

/-! ## The decoding loop on well-formed input -/

theorem stringOfByte_data (b : Nat) : (stringOfByte b).data = [Char.ofNat b] := rfl

theorem append_labelString_cons (ds : String) (b : Nat) (l : List Nat) :
    (ds ++ stringOfByte b) ++ labelString l = ds ++ labelString (b :: l) := by
  apply String.ext
  simp [labelString, stringOfByte_data]

theorem append_labelString_single (ds : String) (b : Nat) :
    ds ++ stringOfByte b = ds ++ labelString [b] := by
  apply String.ext
  simp [labelString, stringOfByte_data]

theorem empty_append_labelString (l : List Nat) : "" ++ labelString l = labelString l := by
  apply String.ext
  simp [labelString]

/-- Reading the content bytes of one label: `k` bytes of it were read before,
the rest `l` is not empty and has no zero byte. -/
theorem questionLoop_content (l : List Nat) :
    ∀ (rest : List Nat) (n : Nat) (ds : String) (parts : List String) (k y : Nat),
      l ≠ [] → (∀ b ∈ l, b ≠ 0) → k + l.length = n →
      questionLoop (l ++ rest)
          { state := 1, expectedLength := n, domainString := ds, domainParts := parts,
            x := k, y := y } =
        questionLoop rest
          { state := 0, expectedLength := n, domainString := "",
            domainParts := parts ++ [ds ++ labelString l], x := 0, y := y + l.length } := by
  induction l with
  | nil => intro _ _ _ _ _ _ h; exact absurd rfl h
  | cons b l ih =>
    intro rest n ds parts k y _ hnz hk
    have hb : b ≠ 0 := hnz b (List.mem_cons_self _ _)
    by_cases hl : l = []
    · subst hl
      have hkn : k + 1 = n := by simpa using hk
      simp [questionLoop, hb, hkn, append_labelString_single]
    · have hlen : 0 < l.length := List.length_pos.mpr hl
      have hkn : ¬ (k + 1 = n) := by
        simp only [List.length_cons] at hk; omega
      have hnz2 : ∀ c ∈ l, c ≠ 0 := fun c hc => hnz c (List.mem_cons_of_mem _ hc)
      have hk2 : (k + 1) + l.length = n := by
        simp only [List.length_cons] at hk; omega
      have := ih rest n (ds ++ stringOfByte b) parts (k + 1) (y + 1) hl hnz2 hk2
      simp only [List.cons_append, questionLoop, hb, hkn, ne_eq, not_false_eq_true, ↓reduceIte,
        List.append_eq]
      rw [this, append_labelString_cons]
      simp only [List.length_cons]
      congr 2
      omega

/-- Reading a sequence of well-formed labels from a state between two
labels. -/
theorem questionLoop_labels (labels : List (List Nat)) :
    ∀ (rest : List Nat) (e : Nat) (parts : List String) (y : Nat),
      (∀ l ∈ labels, LabelOk l) →
      ∃ e2, questionLoop (encodeLabels labels ++ rest)
          { state := 0, expectedLength := e, domainString := "", domainParts := parts,
            x := 0, y := y } =
        questionLoop rest
          { state := 0, expectedLength := e2, domainString := "",
            domainParts := parts ++ labels.map labelString, x := 0,
            y := y + (encodeLabels labels).length } := by
  induction labels with
  | nil => intro rest e parts y _; exact ⟨e, by simp [encodeLabels]⟩
  | cons l ls ih =>
    intro rest e parts y hok
    have hl : LabelOk l := hok l (List.mem_cons_self _ _)
    have hls : ∀ m ∈ ls, LabelOk m := fun m hm => hok m (List.mem_cons_of_mem _ hm)
    have hne : l ≠ [] := by
      intro h; have := hl.1; simp [h] at this
    have hnz : ∀ b ∈ l, b ≠ 0 := fun b hb => (hl.2.2 b hb).1
    obtain ⟨e2, h2⟩ := ih rest l.length (parts ++ [labelString l]) (y + 1 + l.length) hls
    refine ⟨e2, ?_⟩
    have h1 := questionLoop_content l (encodeLabels ls ++ rest) l.length "" parts 0 (y + 1)
      hne hnz (by simp)
    simp only [encodeLabels, List.cons_append, List.append_assoc]
    rw [questionLoop]
    simp only [show ¬ ((0 : Nat) = 1) by decide, ↓reduceIte]
    rw [h1, empty_append_labelString, h2]
    simp only [List.map_cons, List.append_assoc, List.singleton_append, List.length_append,
      List.length_cons]
    congr 2
    omega

/-- The loop on a well-formed name whose type code has high byte `00`: the
terminator is read as a length byte and the high type byte ends the loop,
leaving one empty label and `y` on the high type byte. -/
theorem questionLoop_wire (labels : List (List Nat)) (hok : ∀ l ∈ labels, LabelOk l)
    (t2 : Nat) (tail : List Nat) :
    ∃ e2, questionLoop (encodeLabels labels ++ 0 :: 0 :: t2 :: tail) QState.init =
      { state := 1, expectedLength := e2, domainString := "",
        domainParts := labels.map labelString ++ [""], x := 1,
        y := (encodeLabels labels).length + 1 } := by
  obtain ⟨e2, h⟩ := questionLoop_labels labels (0 :: 0 :: t2 :: tail) 0 [] 0 hok
  refine ⟨0, ?_⟩
  unfold QState.init
  rw [h]
  simp [questionLoop]

/-- Slicing two bytes right after a prefix of the backing array. -/
theorem slice_after_prefix (pre : List Nat) (a b : Nat) (tail spare : List Nat) :
    Slice.slice { elems := pre ++ a :: b :: tail, spare := spare } pre.length (pre.length + 2) =
      some { elems := [a, b], spare := tail ++ spare } := by
  have h1 : pre.length + 2 ≤ (pre ++ a :: b :: tail).length + spare.length := by
    simp only [List.length_append, List.length_cons]; omega
  have h2 : (pre ++ a :: b :: tail) ++ spare = pre ++ (a :: b :: (tail ++ spare)) := by simp
  have h3 : (pre ++ a :: b :: tail) ++ spare = (pre ++ [a, b]) ++ (tail ++ spare) := by simp
  have h4 : pre.length + 2 = (pre ++ [a, b]).length := by simp
  unfold Slice.slice Slice.cap Slice.arr
  rw [if_pos ⟨by omega, h1⟩]
  simp only
  congr 2
  · rw [h2, List.drop_left]; simp
  · rw [h3, h4, List.drop_left]

/-- Decoding a well-formed question whose type code has high byte `00`: the
labels, one empty label, and the two type bytes.  Bytes after the type bytes
and the spare capacity are not read. -/
theorem getQuestionDomain_wire (labels : List (List Nat)) (hok : ∀ l ∈ labels, LabelOk l)
    (t2 : Nat) (tail spare : List Nat) :
    getQuestionDomain { elems := encodeLabels labels ++ 0 :: 0 :: t2 :: tail, spare := spare } =
      some (labels.map labelString ++ [""], [0, t2]) := by
  obtain ⟨e2, h⟩ := questionLoop_wire labels hok t2 tail
  have hs := slice_after_prefix (encodeLabels labels ++ [0]) 0 t2 tail spare
  have he : (encodeLabels labels ++ [0]) ++ 0 :: t2 :: tail =
      encodeLabels labels ++ 0 :: 0 :: t2 :: tail := by simp
  rw [he] at hs
  simp only [List.length_append, List.length_singleton] at hs
  unfold getQuestionDomain
  simp only [h, hs]
  rfl

/-! ## The header appends and the request buffer -/

theorem HeaderState.append_hdr (st : HeaderState) (xs : List Nat) :
    (st.append xs).hdr = st.hdr ++ xs := by
  unfold HeaderState.append
  dsimp only
  split <;> rfl

/-- An append that keeps the header within the first `n` bytes leaves the
request buffer unchanged from byte `n` on, and keeps its size. -/
theorem HeaderState.append_buf (st : HeaderState) (xs : List Nat) (n : Nat)
    (h : (st.hdr ++ xs).length ≤ n) :
    (st.append xs).buf.drop n = st.buf.drop n ∧ (st.append xs).buf.length = st.buf.length := by
  unfold HeaderState.append
  dsimp only
  split
  · rename_i hc
    obtain ⟨_, hle⟩ := hc
    constructor
    · simp only
      rw [List.drop_append_eq_append_drop, List.drop_of_length_le h, List.nil_append,
        List.drop_drop]
      congr 1
      omega
    · simp only [List.length_append, List.length_drop] at hle ⊢
      omega
  · exact ⟨rfl, rfl⟩

/-- The header appends write `dnsHeader` as the concatenation of the six
fields, and touch the request buffer only below byte 12. -/
theorem headerAppends_spec (data : Slice) (tid flags an : List Nat)
    (h1 : tid.length = 2) (h2 : flags.length = 2) (h3 : an.length = 2) :
    (headerAppends data tid flags an).hdr = tid ++ flags ++ [0, 1] ++ an ++ [0, 0] ++ [0, 0] ∧
    (headerAppends data tid flags an).buf.drop 12 = data.arr.drop 12 ∧
    (headerAppends data tid flags an).buf.length = data.arr.length := by
  unfold headerAppends
  simp only
  generalize hs0 : ({ buf := data.arr, hdr := tid, shared := true } : HeaderState) = s0
  have e0 : s0.hdr = tid := by rw [← hs0]
  have b0 : s0.buf = data.arr := by rw [← hs0]
  generalize hs1 : s0.append flags = s1
  have e1 : s1.hdr = tid ++ flags := by rw [← hs1, HeaderState.append_hdr, e0]
  have b1 := HeaderState.append_buf s0 flags 12 (by rw [e0]; simp [h1, h2])
  rw [hs1] at b1
  generalize hs2 : s1.append [0, 1] = s2
  have e2 : s2.hdr = tid ++ flags ++ [0, 1] := by rw [← hs2, HeaderState.append_hdr, e1]
  have b2 := HeaderState.append_buf s1 [0, 1] 12 (by rw [e1]; simp [h1, h2])
  rw [hs2] at b2
  generalize hs3 : s2.append an = s3
  have e3 : s3.hdr = tid ++ flags ++ [0, 1] ++ an := by rw [← hs3, HeaderState.append_hdr, e2]
  have b3 := HeaderState.append_buf s2 an 12 (by rw [e2]; simp [h1, h2, h3])
  rw [hs3] at b3
  generalize hs4 : s3.append [0, 0] = s4
  have e4 : s4.hdr = tid ++ flags ++ [0, 1] ++ an ++ [0, 0] := by
    rw [← hs4, HeaderState.append_hdr, e3]
  have b4 := HeaderState.append_buf s3 [0, 0] 12 (by rw [e3]; simp [h1, h2, h3])
  rw [hs4] at b4
  have e5 : (s4.append [0, 0]).hdr = tid ++ flags ++ [0, 1] ++ an ++ [0, 0] ++ [0, 0] := by
    rw [HeaderState.append_hdr, e4]
  have b5 := HeaderState.append_buf s4 [0, 0] 12 (by rw [e4]; simp [h1, h2, h3])
  refine ⟨e5, ?_, ?_⟩
  · rw [b5.1, b4.1, b3.1, b2.1, b1.1, b0]
  · rw [b5.2, b4.2, b3.2, b2.2, b1.2, b0]

/-- The request slice seen after the header appends has the same question
section as before them. -/
theorem sliceFrom_after_appends (data : Slice) (buf : List Nat)
    (hd : buf.drop 12 = data.arr.drop 12) (hl : buf.length = data.arr.length)
    (h12 : 12 ≤ data.len) :
    Slice.sliceFrom { elems := buf.take data.len, spare := buf.drop data.len } 12 =
      data.sliceFrom 12 := by
  have hlen : data.len ≤ buf.length := by
    rw [hl]; unfold Slice.arr Slice.len; simp
  have e1 : (buf.take data.len).drop 12 = data.elems.drop 12 := by
    rw [List.drop_take, hd]
    unfold Slice.arr Slice.len
    rw [List.drop_append_of_le_length (by unfold Slice.len at h12; exact h12)]
    rw [List.take_append_of_le_length (by simp)]
    apply List.take_of_length_le
    simp
  have e2 : buf.drop data.len = data.spare := by
    have : data.len = 12 + (data.len - 12) := by omega
    rw [this, ← List.drop_drop, hd]
    unfold Slice.arr
    rw [List.drop_drop, ← this]
    unfold Slice.len
    rw [List.drop_left]
  unfold Slice.sliceFrom
  have hlen2 : (Slice.len { elems := buf.take data.len, spare := buf.drop data.len }) = data.len := by
    unfold Slice.len
    simp only [List.length_take]
    unfold Slice.len at hlen
    omega
  rw [hlen2, if_pos h12, if_pos h12, e1, e2]

theorem slice_elems_length (s t : Slice) (lo hi : Nat) (h : s.slice lo hi = some t) :
    t.elems.length = hi - lo := by
  unfold Slice.slice at h
  split at h
  · rename_i hc
    injection h with h
    subst h
    unfold Slice.cap at hc
    unfold Slice.arr
    simp only [List.length_take, List.length_drop, List.length_append]
    omega
  · exact absurd h (by simp)

theorem getFlags_length (fb : Slice) (flags : List Nat) (h : getFlags fb = some flags) :
    flags.length = 2 := by
  unfold getFlags at h
  cases h0 : fb.index 0 with
  | none => simp [h0] at h
  | some f0 =>
    simp only [h0, Option.bind_eq_bind, Option.some_bind, Option.pure_def, Option.some.injEq] at h
    subst h
    rfl

theorem sliceFrom_len (s t : Slice) (lo : Nat) (h : s.sliceFrom lo = some t) : lo ≤ s.len := by
  unfold Slice.sliceFrom at h
  split at h
  · assumption
  · exact absurd h (by simp)

/-- The response in one expression: the request buffer is read once, the
second `getRecs` sees the question section the first one saw. -/
theorem buildResponse_eq (zones : ZoneStore) (data : Slice) :
    buildResponse zones data =
      (data.slice 0 2).bind fun tid =>
      (data.slice 2 4).bind fun fb =>
      (getFlags fb).bind fun flags =>
      (data.sliceFrom 12).bind fun q =>
      (getRecs zones q).bind fun r =>
      (buildBody r.2.1 r.1 []).bind fun body =>
        some (tid.elems ++ flags ++ [0, 1] ++ putUint16 (r.1.length % 65536) ++ [0, 0] ++ [0, 0]
          ++ (buildQuestion r.2.2 r.2.1 ++ body)) := by
  unfold buildResponse
  simp only [Option.bind_eq_bind, Option.pure_def]
  cases h1 : data.slice 0 2 with
  | none => rfl
  | some tid =>
    cases h2 : data.slice 2 4 with
    | none => rfl
    | some fb =>
      cases h3 : getFlags fb with
      | none => simp only [Option.some_bind, h3, Option.none_bind]
      | some flags =>
        cases h4 : data.sliceFrom 12 with
        | none => simp only [Option.some_bind, h3, Option.none_bind]
        | some q =>
          cases h5 : getRecs zones q with
          | none => simp only [Option.some_bind, h3, h5, Option.none_bind]
          | some r =>
            obtain ⟨records, rectype, domain⟩ := r
            have ht := slice_elems_length data tid 0 2 h1
            have hf := getFlags_length fb flags h3
            have ha : (putUint16 (records.length % 65536)).length = 2 := rfl
            obtain ⟨e1, e2, e3⟩ := headerAppends_spec data tid.elems flags
              (putUint16 (records.length % 65536)) ht hf ha
            have hq := sliceFrom_after_appends data _ e2 e3 (sliceFrom_len data q 12 h4)
            simp only [Option.some_bind, h3, hq, h4, h5, e1]

/-! ## The answer section -/

theorem buildBody_eq (rectype : String) (records : List GoMap) :
    ∀ acc : List Nat, buildBody rectype records acc =
      (recordsFields records).map fun fs =>
        acc ++ concatBytes (fs.map fun f => rectoBytes rectype f.1 f.2) := by
  induction records with
  | nil => intro acc; simp [buildBody, recordsFields, concatBytes]
  | cons r rs ih =>
    intro acc
    unfold buildBody recordsFields
    cases hr : recordFields r with
    | none => simp
    | some f =>
      obtain ⟨ttl, value⟩ := f
      simp only [Option.bind_eq_bind, Option.some_bind, ih]
      cases hrs : recordsFields rs with
      | none => simp
      | some fs => simp [concatBytes]

theorem recordsFields_of_all (records : List GoMap)
    (h : ∀ r ∈ records, (recordFields r).isSome = true) :
    ∃ fs, recordsFields records = some fs := by
  induction records with
  | nil => exact ⟨[], rfl⟩
  | cons r rs ih =>
    obtain ⟨fs, hfs⟩ := ih fun x hx => h x (List.mem_cons_of_mem _ hx)
    have hr := h r (List.mem_cons_self _ _)
    obtain ⟨f, hf⟩ := Option.isSome_iff_exists.mp hr
    exact ⟨f :: fs, by simp [recordsFields, hf, hfs]⟩

theorem recordsFields_length (records : List GoMap) :
    ∀ fs, recordsFields records = some fs → fs.length = records.length := by
  induction records with
  | nil => intro fs h; simp [recordsFields] at h; subst h; rfl
  | cons r rs ih =>
    intro fs h
    unfold recordsFields at h
    cases hr : recordFields r with
    | none => simp [hr] at h
    | some f =>
      cases hrs : recordsFields rs with
      | none => simp [hr, hrs] at h
      | some gs =>
        simp only [hr, hrs, Option.some.injEq] at h
        subst h
        simp [ih gs hrs]

theorem lookup_mem {β : Type} (k : String) (v : β) (l : List (String × β))
    (h : l.lookup k = some v) : ∃ k2, (k2, v) ∈ l := by
  induction l with
  | nil => simp [List.lookup] at h
  | cons p ps ih =>
    obtain ⟨a, b⟩ := p
    unfold List.lookup at h
    split at h
    · injection h with h
      subst h
      exact ⟨a, List.mem_cons_self _ _⟩
    · obtain ⟨k2, hk⟩ := ih h
      exact ⟨k2, List.mem_cons_of_mem _ hk⟩

/-- In a well-typed store every record `getRecs` returns has its two
fields. -/
theorem getRecs_typed (zones : ZoneStore) (ht : storeTyped zones = true) (q : Slice)
    (records : List GoMap) (tag : String) (domain : List String)
    (h : getRecs zones q = some (records, tag, domain)) :
    ∃ fs, recordsFields records = some fs := by
  apply recordsFields_of_all
  unfold getRecs at h
  cases hq : getQuestionDomain q with
  | none => simp [hq] at h
  | some dq =>
    obtain ⟨dom, qt⟩ := dq
    simp only [hq, Option.bind_eq_bind, Option.some_bind, Option.pure_def] at h
    cases hz : getZone zones dom with
    | none =>
      simp only [hz, Option.some.injEq, Prod.mk.injEq] at h
      intro r hr
      rw [← h.1] at hr
      exact absurd hr (List.not_mem_nil _)
    | some zone =>
      simp only [hz] at h
      split at h
      · rename_i rs hrs
        simp only [Option.some.injEq, Prod.mk.injEq] at h
        obtain ⟨k1, hk1⟩ := lookup_mem _ _ _ hz
        obtain ⟨k2, hk2⟩ := lookup_mem _ _ _ hrs
        unfold storeTyped at ht
        rw [List.all_eq_true] at ht
        have h1 := ht _ hk1
        rw [List.all_eq_true] at h1
        have h2 := h1 _ hk2
        simp only [valTyped, List.all_eq_true] at h2
        intro r hr
        rw [← h.1] at hr
        exact h2 r hr
      · simp only [Option.some.injEq, Prod.mk.injEq] at h
        intro r hr
        rw [← h.1] at hr
        exact absurd hr (List.not_mem_nil _)

/-! ## Requests with a twelve-byte header -/

theorem getRecs_of_decode (zones : ZoneStore) (q : Slice) (d : List String × List Nat)
    (h : getQuestionDomain q = some d) : ∃ r, getRecs zones q = some r := by
  obtain ⟨dom, qt⟩ := d
  unfold getRecs
  simp only [h, Option.bind_eq_bind, Option.some_bind, Option.pure_def]
  cases getZone zones dom with
  | none => exact ⟨_, rfl⟩
  | some zone =>
    simp only
    split
    · exact ⟨_, rfl⟩
    · exact ⟨_, rfl⟩

/-- The response to a request with a twelve-byte header: the flags come from
header byte 2, the rest from the question section. -/
theorem buildResponse_request (zones : ZoneStore) (hdr question spare : List Nat)
    (hh : hdr.length = 12) :
    ∃ flags, getFlags (Slice.ofList ((hdr.drop 2).take 2)) = some flags ∧ flags.length = 2 ∧
      buildResponse zones (mkRequest hdr question spare) =
        (getRecs zones { elems := question, spare := spare }).bind fun r =>
        (buildBody r.2.1 r.1 []).bind fun body =>
          some (hdr.take 2 ++ flags ++ [0, 1] ++ putUint16 (r.1.length % 65536) ++ [0, 0] ++ [0, 0]
            ++ (buildQuestion r.2.2 r.2.1 ++ body)) := by
  obtain ⟨h0, h1, h2, h3, t, rfl⟩ : ∃ h0 h1 h2 h3 t, hdr = h0 :: h1 :: h2 :: h3 :: t := by
    match hdr, hh with
    | h0 :: h1 :: h2 :: h3 :: t, _ => exact ⟨h0, h1, h2, h3, t, rfl⟩
  have e1 : (mkRequest (h0 :: h1 :: h2 :: h3 :: t) question spare).slice 0 2 =
      some { elems := [h0, h1], spare := h2 :: h3 :: (t ++ question ++ spare) } := by
    simp [mkRequest, Slice.slice, Slice.cap, Slice.arr]
    omega
  have e2 : (mkRequest (h0 :: h1 :: h2 :: h3 :: t) question spare).slice 2 4 =
      some { elems := [h2, h3], spare := t ++ question ++ spare } := by
    simp [mkRequest, Slice.slice, Slice.cap, Slice.arr]
    omega
  have e3 : (mkRequest (h0 :: h1 :: h2 :: h3 :: t) question spare).sliceFrom 12 =
      some { elems := question, spare := spare } := by
    unfold mkRequest Slice.sliceFrom Slice.len
    rw [if_pos (by simp only [List.length_append]; omega)]
    simp only [List.drop_left' hh]
  refine ⟨[0x80 ||| h2 >>> 3 ||| 0x04 ||| 0x02 ||| 0x01, 0x80 ||| 0 ||| 0], rfl, rfl, ?_⟩
  rw [buildResponse_eq, e1, e2, e3]
  rfl

theorem slice_elems_within (s t : Slice) (lo hi : Nat) (h : s.slice lo hi = some t)
    (hlen : hi ≤ s.len) : t.elems = (s.elems.drop lo).take (hi - lo) := by
  unfold Slice.slice at h
  split at h
  · rename_i hc
    injection h with h
    subst h
    unfold Slice.len at hlen
    unfold Slice.arr
    simp only
    rw [List.drop_append_of_le_length (by omega)]
    rw [List.take_append_of_le_length (by simp only [List.length_drop]; omega)]
  · exact absurd h (by simp)

theorem putUint16_mod (n : Nat) : putUint16 (n % 65536) = [n / 256 % 256, n % 256] := by
  unfold putUint16
  congr 1
  · omega
  · congr 1
    omega

/-- Everything a returned response is made of. -/
theorem buildResponse_inv (zones : ZoneStore) (data : Slice) (resp : List Nat)
    (h : buildResponse zones data = some resp) :
    ∃ flags q records tag domain fields,
      getFlags (Slice.ofList ((data.elems.drop 2).take 2)) = some flags ∧ flags.length = 2 ∧
      12 ≤ data.len ∧ data.sliceFrom 12 = some q ∧
      getRecs zones q = some (records, tag, domain) ∧
      recordsFields records = some fields ∧
      resp = (data.elems.take 2 ++ flags ++ [0, 1] ++
          [records.length / 256 % 256, records.length % 256] ++ [0, 0] ++ [0, 0]) ++
        (buildQuestion domain tag ++
          concatBytes (fields.map fun f => rectoBytes tag f.1 f.2)) := by
  rw [buildResponse_eq] at h
  cases h1 : data.slice 0 2 with
  | none => simp [h1] at h
  | some tid =>
    cases h2 : data.slice 2 4 with
    | none => simp [h1, h2] at h
    | some fb =>
      cases h3 : getFlags fb with
      | none => simp [h1, h2, h3] at h
      | some flags =>
        cases h4 : data.sliceFrom 12 with
        | none => simp [h1, h2, h3, h4] at h
        | some q =>
          cases h5 : getRecs zones q with
          | none => simp [h1, h2, h3, h4, h5] at h
          | some r =>
            obtain ⟨records, tag, domain⟩ := r
            simp only [h1, h2, h3, h4, h5, Option.some_bind, buildBody_eq, List.nil_append] at h
            cases h6 : recordsFields records with
            | none => simp [h6] at h
            | some fields =>
              simp only [h6, Option.map_some', Option.some_bind, Option.some.injEq] at h
              have hl := sliceFrom_len data q 12 h4
              have e1 := slice_elems_within data tid 0 2 h1 (by omega)
              have e2 := slice_elems_within data fb 2 4 h2 (by omega)
              simp only [List.drop_zero, Nat.sub_zero] at e1
              have e3 : getFlags (Slice.ofList ((data.elems.drop 2).take 2)) = some flags := by
                rw [← h3]
                show getFlags (Slice.ofList (List.take (4 - 2) (List.drop 2 data.elems))) = _
                rw [← e2]
                rfl
              refine ⟨flags, q, records, tag, domain, fields, e3, getFlags_length fb flags h3, hl,
                rfl, h5, h6, ?_⟩
              rw [← h, e1, putUint16_mod]

/-! ## The header of the response -/

theorem take_header (hd rest : List Nat) (n : Nat) (h : hd.length = n) :
    (hd ++ rest).take n = hd := by
  subst h
  exact List.take_left _ _

/-- C1: for every request made of a 12-byte header and a well-formed
single-question A-type question section, and for every zone store, a response
of `buildResponse` begins with the first two bytes of the request; and a
response is returned whenever the records of the store are well typed (as
they are in every store decoded from JSON). -/
theorem transaction_id_echoed (zones : ZoneStore) (hdr : List Nat)
    (labels : List (List Nat)) (spare : List Nat)
    (hh : hdr.length = 12) (hok : ∀ l ∈ labels, LabelOk l) :
    (∀ resp, buildResponse zones (mkRequest hdr (wireQuestion labels 0 1 0 1) spare) = some resp →
      resp.take 2 = (mkRequest hdr (wireQuestion labels 0 1 0 1) spare).elems.take 2) ∧
    (storeTyped zones = true →
      ∃ resp, buildResponse zones (mkRequest hdr (wireQuestion labels 0 1 0 1) spare) = some resp) := by
  constructor
  · intro resp h
    obtain ⟨flags, q, records, tag, domain, fields, _, _, _, _, _, _, hr⟩ :=
      buildResponse_inv zones _ resp h
    have h2 : ((mkRequest hdr (wireQuestion labels 0 1 0 1) spare).elems.take 2).length = 2 := by
      simp only [mkRequest, List.length_take, List.length_append]
      omega
    rw [hr]
    simp only [List.append_assoc]
    exact take_header _ _ 2 h2
  · intro ht
    obtain ⟨flags, _, _, hb⟩ := buildResponse_request zones hdr (wireQuestion labels 0 1 0 1)
      spare hh
    have hd := getQuestionDomain_wire labels hok 1 [0, 1] spare
    obtain ⟨r, hr⟩ := getRecs_of_decode zones _ _ hd
    obtain ⟨records, tag, domain⟩ := r
    obtain ⟨fs, hfs⟩ := getRecs_typed zones ht _ records tag domain hr
    rw [hb]
    unfold wireQuestion
    simp only [hr, Option.some_bind, buildBody_eq, hfs, Option.map_some']
    exact ⟨_, rfl⟩

/-- C1 at the request for `example.com` and the zone keyed `example.com.`. -/
theorem transaction_id_echoed_witness :
    (exampleHeader.length = 12 ∧ (∀ l ∈ exampleLabels, LabelOk l) ∧
      storeTyped zonesDot = true) ∧
    ((∀ resp, buildResponse zonesDot (mkRequest exampleHeader (wireQuestion exampleLabels 0 1 0 1) [])
        = some resp →
      resp.take 2 = (mkRequest exampleHeader (wireQuestion exampleLabels 0 1 0 1) []).elems.take 2) ∧
    ∃ resp, buildResponse zonesDot (mkRequest exampleHeader (wireQuestion exampleLabels 0 1 0 1) [])
        = some resp) :=
  ⟨⟨rfl, by decide, rfl⟩,
    (transaction_id_echoed zonesDot exampleHeader exampleLabels [] rfl (by decide)).1,
    (transaction_id_echoed zonesDot exampleHeader exampleLabels [] rfl (by decide)).2 rfl⟩

/-- C5: the first 12 bytes of every response `buildResponse` returns are the
request bytes 0-1, the two bytes `getFlags` returns for the request bytes 2-3,
`00 01`, the number of resolved records as a big-endian 16-bit integer, `00 00`
and `00 00`. -/
theorem header_layout (zones : ZoneStore) (data : Slice) (resp : List Nat)
    (h : buildResponse zones data = some resp) :
    ∃ flags q records tag domain,
      getFlags (Slice.ofList ((data.elems.drop 2).take 2)) = some flags ∧
      data.sliceFrom 12 = some q ∧ getRecs zones q = some (records, tag, domain) ∧
      resp.take 12 = data.elems.take 2 ++ flags ++ [0, 1] ++
        [records.length / 256 % 256, records.length % 256] ++ [0, 0] ++ [0, 0] := by
  obtain ⟨flags, q, records, tag, domain, fields, hf, hfl, h12, hq, hr, _, he⟩ :=
    buildResponse_inv zones data resp h
  refine ⟨flags, q, records, tag, domain, hf, hq, hr, ?_⟩
  rw [he]
  apply take_header
  unfold Slice.len at h12
  simp only [List.length_append, List.length_take, hfl, List.length_cons, List.length_nil]
  omega

/-- C5 at the request for `example.com` and the zone keyed `example.com.`:
one record is resolved and the header is `12 34 87 80 00 01 00 01 00 00 00 00`. -/
theorem header_layout_witness :
    buildResponse zonesDot exampleRequest =
      some [0x12, 0x34, 0x87, 0x80, 0, 1, 0, 1, 0, 0, 0, 0,
        7, 101, 120, 97, 109, 112, 108, 101, 3, 99, 111, 109, 0, 0, 1, 0, 1,
        0xc0, 0x0c, 0, 1, 0, 1, 0, 0, 0, 60, 10, 0, 0, 1] ∧
    ∃ flags q records tag domain,
      getFlags (Slice.ofList ((exampleRequest.elems.drop 2).take 2)) = some flags ∧
      exampleRequest.sliceFrom 12 = some q ∧ getRecs zonesDot q = some (records, tag, domain) ∧
      List.take 12 [0x12, 0x34, 0x87, 0x80, 0, 1, 0, 1, 0, 0, 0, 0,
        7, 101, 120, 97, 109, 112, 108, 101, 3, 99, 111, 109, 0, 0, 1, 0, 1,
        0xc0, 0x0c, 0, 1, 0, 1, 0, 0, 0, 60, 10, 0, 0, 1] =
        exampleRequest.elems.take 2 ++ flags ++ [0, 1] ++
          [records.length / 256 % 256, records.length % 256] ++ [0, 0] ++ [0, 0] :=
  ⟨rfl, header_layout zonesDot exampleRequest _ rfl⟩

/-- C6: every response `buildResponse` returns is the 12-byte header, then
`buildQuestion(domain, tag)`, then `rectoBytes(tag, ttl, value)` for each
resolved record in order, and nothing else, where `(records, tag, domain)` is
the result of `getRecs` on the request from byte 12 on. -/
theorem response_layout (zones : ZoneStore) (data : Slice) (resp : List Nat)
    (h : buildResponse zones data = some resp) :
    ∃ q records tag domain fields header,
      data.sliceFrom 12 = some q ∧ getRecs zones q = some (records, tag, domain) ∧
      recordsFields records = some fields ∧ fields.length = records.length ∧
      header.length = 12 ∧ header = resp.take 12 ∧
      resp = header ++ buildQuestion domain tag ++
        concatBytes (fields.map fun f => rectoBytes tag f.1 f.2) := by
  obtain ⟨flags, q, records, tag, domain, fields, hf, hfl, h12, hq, hr, hfs, he⟩ :=
    buildResponse_inv zones data resp h
  have hlen : (data.elems.take 2 ++ flags ++ [0, 1] ++
      [records.length / 256 % 256, records.length % 256] ++ [0, 0] ++ [0, 0]).length = 12 := by
    unfold Slice.len at h12
    simp only [List.length_append, List.length_take, hfl, List.length_cons, List.length_nil]
    omega
  refine ⟨q, records, tag, domain, fields, _, hq, hr, hfs, recordsFields_length records fields hfs,
    hlen, ?_, ?_⟩
  · rw [he]
    exact (take_header _ _ 12 hlen).symm
  · rw [he]
    simp only [List.append_assoc]

/-- C6 at the request for `example.com` and the zone keyed `example.com.`. -/
theorem response_layout_witness :
    buildResponse zonesDot exampleRequest =
      some [0x12, 0x34, 0x87, 0x80, 0, 1, 0, 1, 0, 0, 0, 0,
        7, 101, 120, 97, 109, 112, 108, 101, 3, 99, 111, 109, 0, 0, 1, 0, 1,
        0xc0, 0x0c, 0, 1, 0, 1, 0, 0, 0, 60, 10, 0, 0, 1] ∧
    ∃ q records tag domain fields header,
      exampleRequest.sliceFrom 12 = some q ∧ getRecs zonesDot q = some (records, tag, domain) ∧
      recordsFields records = some fields ∧ fields.length = records.length ∧
      header.length = 12 ∧
      header = List.take 12 [0x12, 0x34, 0x87, 0x80, 0, 1, 0, 1, 0, 0, 0, 0,
        7, 101, 120, 97, 109, 112, 108, 101, 3, 99, 111, 109, 0, 0, 1, 0, 1,
        0xc0, 0x0c, 0, 1, 0, 1, 0, 0, 0, 60, 10, 0, 0, 1] ∧
      [0x12, 0x34, 0x87, 0x80, 0, 1, 0, 1, 0, 0, 0, 0,
        7, 101, 120, 97, 109, 112, 108, 101, 3, 99, 111, 109, 0, 0, 1, 0, 1,
        0xc0, 0x0c, 0, 1, 0, 1, 0, 0, 0, 60, 10, 0, 0, 1] =
        header ++ buildQuestion domain tag ++
          concatBytes (fields.map fun f => rectoBytes tag f.1 f.2) :=
  ⟨rfl, response_layout zonesDot exampleRequest _ rfl⟩

/-! ## `rectoBytes` on dotted-decimal values -/

theorem splitDot_no_dot (s : List Char) (h : '.' ∉ s) : splitDot s = [s] := by
  induction s with
  | nil => rfl
  | cons c cs ih =>
    have hc : c ≠ '.' := fun e => h (e ▸ List.mem_cons_self _ _)
    have hcs : '.' ∉ cs := fun m => h (List.mem_cons_of_mem _ m)
    unfold splitDot
    rw [if_neg hc, ih hcs]

theorem splitDot_append_dot (s rest : List Char) (h : '.' ∉ s) :
    splitDot (s ++ '.' :: rest) = s :: splitDot rest := by
  induction s with
  | nil => simp [splitDot]
  | cons c cs ih =>
    have hc : c ≠ '.' := fun e => h (e ▸ List.mem_cons_self _ _)
    have hcs : '.' ∉ cs := fun m => h (List.mem_cons_of_mem _ m)
    rw [List.cons_append, splitDot, if_neg hc, ih hcs]

set_option maxRecDepth 100000 in
/-- The decimal text of an octet has no dot, and `byte(Atoi(..))` reads the
octet back. -/
theorem octet_text :
    ∀ a < 256, byteOfInt (atoi (toString a)) = a ∧ '.' ∉ (toString a).data := by
  decide

theorem foldl_append_single {α : Type} (f : α → Nat) (l : List α) :
    ∀ acc : List Nat, l.foldl (fun r p => r ++ [f p]) acc = acc ++ l.map f := by
  induction l with
  | nil => intro acc; simp
  | cons x xs ih => intro acc; simp [ih]

theorem stringsSplit_dottedDecimal (a b c d : Nat)
    (ha : a < 256) (hb : b < 256) (hc : c < 256) (hd : d < 256) :
    stringsSplit (dottedDecimal a b c d) = [toString a, toString b, toString c, toString d] := by
  have e : (dottedDecimal a b c d).data =
      (toString a).data ++ '.' :: ((toString b).data ++ '.' ::
        ((toString c).data ++ '.' :: (toString d).data)) := by
    unfold dottedDecimal
    simp only [String.data_append, List.append_assoc]
    rfl
  unfold stringsSplit
  rw [e, splitDot_append_dot _ _ (octet_text a ha).2, splitDot_append_dot _ _ (octet_text b hb).2,
    splitDot_append_dot _ _ (octet_text c hc).2, splitDot_no_dot _ (octet_text d hd).2]
  rfl

/-- The answer record of an `a` record whose value is a dotted-decimal IPv4
address: the pointer `C0 0C`, type `00 01`, class `00 01`, the ttl on four
bytes, the four octets. -/
theorem rectoBytes_dottedDecimal (ttl a b c d : Nat)
    (ha : a < 256) (hb : b < 256) (hc : c < 256) (hd : d < 256) :
    rectoBytes "a" ttl (dottedDecimal a b c d) =
      [0xc0, 0x0c, 0x00, 0x01, 0x00, 0x01] ++ putUint32 ttl ++ [a, b, c, d] := by
  unfold rectoBytes
  simp only [↓reduceIte, foldl_append_single (fun p => byteOfInt (atoi p)),
    stringsSplit_dottedDecimal a b c d ha hb hc hd, List.map_cons, List.map_nil,
    (octet_text a ha).1, (octet_text b hb).1, (octet_text c hc).1, (octet_text d hd).1]
  rfl

/-! ## `getRecs` on well-formed questions -/

/-- The result of `getRecs` once the question is decoded. -/
theorem getRecs_of_domain (zones : ZoneStore) (q : Slice) (domain : List String)
    (qt : List Nat) (h : getQuestionDomain q = some (domain, qt)) :
    getRecs zones q = some
      (match getZone zones domain with
        | some zone =>
          match zone.lookup (tagOf qt) with
          | some (GoVal.recs rs) => (rs, tagOf qt, domain)
          | _ => ([], "", [])
        | none => ([], "", [])) := by
  unfold getRecs tagOf
  simp only [h, Option.bind_eq_bind, Option.some_bind, Option.pure_def]
  cases getZone zones domain with
  | none => rfl
  | some zone =>
    simp only
    split <;> rename_i h1 <;> simp only [h1]

theorem recordsFields_of_IsARecord (records : List GoMap) (answers : List ARecord)
    (h : List.Forall₂ IsARecord records answers) :
    recordsFields records =
      some (answers.map fun x => (x.ttl % 4294967296, dottedDecimal x.a x.b x.c x.d)) := by
  induction h with
  | nil => rfl
  | cons hx _ ih =>
    obtain ⟨h1, h2, _⟩ := hx
    unfold recordsFields recordFields
    simp only [h1, h2, ih, List.map_cons]

theorem concat_answers (answers : List ARecord)
    (h : ∀ x ∈ answers, x.a < 256 ∧ x.b < 256 ∧ x.c < 256 ∧ x.d < 256) :
    concatBytes ((answers.map fun x => (x.ttl % 4294967296, dottedDecimal x.a x.b x.c x.d)).map
      fun f => rectoBytes "a" f.1 f.2) = concatBytes (answers.map answerBytes) := by
  induction answers with
  | nil => rfl
  | cons x xs ih =>
    obtain ⟨ha, hb, hc, hd⟩ := h x (List.mem_cons_self _ _)
    simp only [List.map_cons, concatBytes, rectoBytes_dottedDecimal _ _ _ _ _ ha hb hc hd]
    rw [ih fun y hy => h y (List.mem_cons_of_mem _ hy)]
    rfl

theorem isARecord_bounds (records : List GoMap) (answers : List ARecord)
    (h : List.Forall₂ IsARecord records answers) :
    ∀ x ∈ answers, x.a < 256 ∧ x.b < 256 ∧ x.c < 256 ∧ x.d < 256 := by
  induction h with
  | nil => intro x hx; exact absurd hx (List.not_mem_nil _)
  | cons hx _ ih =>
    intro x hm
    rcases List.mem_cons.mp hm with rfl | hm
    · exact hx.2.2
    · exact ih x hm

/-! ## End to end -/

/-- C2, as stated, fails: with the zone file of origin `example.com` as
`loadZones` decodes it, the response to the example request is the 14 bytes
`12 34 87 80 00 01 00 00 00 00 00 00 00 01`: the flag bytes are `87 80`, the
answer count is 0, the question section holds no label and no answer record
follows.  It does not begin `12 34 84 80 00 01 00 01 00 00 00 00`. -/
theorem end_to_end_counterexample :
    storeJson zonesJson = true ∧
    buildResponse zonesJson exampleRequest =
      some [0x12, 0x34, 0x87, 0x80, 0, 1, 0, 0, 0, 0, 0, 0, 0, 1] ∧
    (¬ ∃ rest, buildResponse zonesJson exampleRequest =
      some ([0x12, 0x34, 0x84, 0x80, 0, 1, 0, 1, 0, 0, 0, 0] ++ rest)) := by
  have h1 : buildResponse zonesJson exampleRequest =
      some [0x12, 0x34, 0x87, 0x80, 0, 1, 0, 0, 0, 0, 0, 0, 0, 1] := rfl
  refine ⟨rfl, h1, ?_⟩
  rintro ⟨rest, h⟩
  rw [h1] at h
  simp at h

/-- C2, amended: for every zone store, a response to the example request
begins `12 34 87 80 00 01` and has the authority and additional counts `00 00 00
00` in its bytes 8 to 11.  The key `getZone` looks up for the request is
`example.com.`, the name with the trailing dot of the empty label; for every
zone store that holds no zone under that key, such as the store whose only
zone has the origin `example.com`, the response is exactly the 14 bytes
`12 34 87 80 00 01 00 00 00 00 00 00 00 01`: answer count 0 and the class bytes
`00 01` as the whole question section. -/
theorem end_to_end_no_zone (zones : ZoneStore) :
    (∀ resp, buildResponse zones exampleRequest = some resp →
      resp.take 6 = [0x12, 0x34, 0x87, 0x80, 0, 1] ∧ (resp.drop 8).take 4 = [0, 0, 0, 0]) ∧
    getZone zones (exampleLabels.map labelString ++ [""]) = zones.lookup "example.com." ∧
    (zones.lookup "example.com." = none →
      buildResponse zones exampleRequest =
        some [0x12, 0x34, 0x87, 0x80, 0, 1, 0, 0, 0, 0, 0, 0, 0, 1]) := by
  have hk : getZone zones (exampleLabels.map labelString ++ [""]) =
      zones.lookup "example.com." := rfl
  have hfl : ∀ flags, getFlags (Slice.ofList ((exampleRequest.elems.drop 2).take 2)) =
      some flags → flags = [0x87, 0x80] := by
    intro flags hf
    have e : getFlags (Slice.ofList ((exampleRequest.elems.drop 2).take 2)) =
        some [0x87, 0x80] := rfl
    rw [e] at hf
    injection hf with hf
    exact hf.symm
  refine ⟨?_, hk, ?_⟩
  · intro resp h
    obtain ⟨flags, q, records, tag, domain, fields, hf, _, _, _, _, _, he⟩ :=
      buildResponse_inv zones exampleRequest resp h
    have h2 : exampleRequest.elems.take 2 = [0x12, 0x34] := rfl
    rw [he, hfl flags hf, h2]
    constructor <;> rfl
  · intro hz
    have hd : getQuestionDomain { elems := wireQuestion exampleLabels 0 1 0 1, spare := [] } =
        some (exampleLabels.map labelString ++ [""], [0, 1]) := rfl
    have hr := getRecs_of_domain zones _ _ _ hd
    rw [hk, hz] at hr
    obtain ⟨flags, hf, _, hb⟩ := buildResponse_request zones exampleHeader
      (wireQuestion exampleLabels 0 1 0 1) [] rfl
    show buildResponse zones (mkRequest exampleHeader (wireQuestion exampleLabels 0 1 0 1) []) = _
    rw [hb, hr, hfl flags hf]
    rfl

/-- C2, amended, at the zone file of origin `example.com` as `loadZones`
decodes it. -/
theorem end_to_end_no_zone_witness :
    (storeJson zonesJson = true ∧ zonesJson.lookup "example.com." = none) ∧
    (List.take 6 [0x12, 0x34, 0x87, 0x80, 0, 1, 0, 0, 0, 0, 0, 0, 0, 1] =
        [0x12, 0x34, 0x87, 0x80, 0, 1] ∧
      (List.drop 8 [0x12, 0x34, 0x87, 0x80, 0, 1, 0, 0, 0, 0, 0, 0, 0, 1]).take 4 =
        [0, 0, 0, 0]) ∧
    buildResponse zonesJson exampleRequest =
      some [0x12, 0x34, 0x87, 0x80, 0, 1, 0, 0, 0, 0, 0, 0, 0, 1] :=
  ⟨⟨rfl, rfl⟩,
    (end_to_end_no_zone zonesJson).1 _ ((end_to_end_no_zone zonesJson).2.2 rfl),
    (end_to_end_no_zone zonesJson).2.2 rfl⟩

/-- C3: the code at a failing input.  The zone file of origin `example.com.`,
as `loadZones` decodes it, is keyed by the name the code joins from the labels
of the example request, and its `a` entry holds one record with the value
`10.0.0.1`; yet the response is the 14 bytes `12 34 87 80 00 01 00 00 00 00 00 00
00 01`, answer count `00 00` and no answer record: the `a` entry is a
`[]interface{}`, on which the type assertion of `getRecs` fails. -/
theorem answers_dropped :
    storeJson zonesJsonDot = true ∧
    getZone zonesJsonDot (exampleLabels.map labelString ++ [""]) =
      some [("$origin", GoVal.str "example.com."),
        ("a", GoVal.slice [GoVal.map exampleRecord])] ∧
    IsARecord exampleRecord { ttl := 60, a := 10, b := 0, c := 0, d := 1 } ∧
    buildResponse zonesJsonDot exampleRequest =
      some [0x12, 0x34, 0x87, 0x80, 0, 1, 0, 0, 0, 0, 0, 0, 0, 1] ∧
    (buildResponse zonesJsonDot exampleRequest).map (fun resp => (resp.drop 6).take 2) =
      some [0, 0] :=
  ⟨rfl, rfl, ⟨rfl, rfl, by decide, by decide, by decide, by decide⟩, rfl, rfl⟩

/-- The answer path of `buildResponse`, which the type assertion of `getRecs`
opens only for a record slice `[]map[string]interface{}`: for a well-formed
single-question A-type request, when the zone keyed by the labels and one
trailing empty label joined with `.` holds under `a` a record slice of `n`
records, `1 <= n < 65536`, each with a `float64` ttl and a dotted-decimal IPv4
value, the response is the header with answer count `n`, the question section,
and exactly `n` answer records of 14 bytes, the `i`-th ending with the four
octets of the `i`-th value. -/
theorem answers_of_matching_zone (zones : ZoneStore) (hdr : List Nat)
    (labels : List (List Nat)) (spare : List Nat) (zone : GoMap) (records : List GoMap)
    (answers : List ARecord)
    (hh : hdr.length = 12) (hok : ∀ l ∈ labels, LabelOk l)
    (hz : getZone zones (labels.map labelString ++ [""]) = some zone)
    (ha : zone.lookup "a" = some (GoVal.recs records))
    (hrec : List.Forall₂ IsARecord records answers)
    (h1 : 1 ≤ records.length) (hn : records.length < 65536) :
    ∃ flags, getFlags (Slice.ofList ((hdr.drop 2).take 2)) = some flags ∧
      answers.length = records.length ∧
      buildResponse zones (mkRequest hdr (wireQuestion labels 0 1 0 1) spare) =
        some (hdr.take 2 ++ flags ++ [0, 1] ++ [records.length / 256, records.length % 256] ++
          [0, 0] ++ [0, 0] ++ buildQuestion (labels.map labelString ++ [""]) "a" ++
          concatBytes (answers.map answerBytes)) := by
  obtain ⟨flags, hf, _, hb⟩ := buildResponse_request zones hdr (wireQuestion labels 0 1 0 1)
    spare hh
  refine ⟨flags, hf, (List.Forall₂.length_eq hrec).symm, ?_⟩
  have hd := getQuestionDomain_wire labels hok 1 [0, 1] spare
  have hr := getRecs_of_domain zones _ _ _ hd
  have ht : tagOf [0, 1] = "a" := rfl
  rw [hz, ht] at hr
  simp only [ha] at hr
  have hm : records.length / 256 % 256 = records.length / 256 := by omega
  rw [hb]
  unfold wireQuestion
  simp only [hr, Option.some_bind, buildBody_eq, recordsFields_of_IsARecord records answers hrec,
    Option.map_some', List.nil_append, concat_answers answers (isARecord_bounds records answers hrec),
    putUint16_mod, hm, List.append_assoc]

/-! ## Requests that resolve to no record -/

/-- C4, as stated, fails: the request for `example.com` with type `00 10`
gets a response whose question section is only `00 01`, not the label
encoding of the name followed by `00 01`. -/
theorem no_records_counterexample :
    (buildResponse zonesDot (mkRequest exampleHeader (wireQuestion exampleLabels 0 16 0 1) [])).map
        (fun resp => resp.drop 12) = some [0, 1] ∧
    [0, 1] ≠ encodeLabels exampleLabels ++ [0, 1] ∧
    [0, 1] ≠ encodeLabels exampleLabels ++ [0] ++ [0, 1] :=
  ⟨rfl, by decide, by decide⟩

/-- C4, amended: for a well-formed single-question request whose type code
has high byte `00`, with `domain` the labels and one trailing empty label and
`tag` the tag of the type bytes: if no zone is keyed by `domain` joined with
`.`, or that zone holds no record slice under `tag`, the response is the
12-byte header with answer count 0 followed by the class bytes `00 01` alone;
if the zone holds an empty record slice under `tag`, the response is the
header with answer count 0 followed by `buildQuestion(domain, tag)`.  No
answer bytes follow in either case. -/
theorem no_records_response (zones : ZoneStore) (hdr : List Nat) (labels : List (List Nat))
    (t2 c1 c2 : Nat) (spare : List Nat)
    (hh : hdr.length = 12) (hok : ∀ l ∈ labels, LabelOk l) :
    ∃ flags, getFlags (Slice.ofList ((hdr.drop 2).take 2)) = some flags ∧
      ((∀ zone rs, getZone zones (labels.map labelString ++ [""]) = some zone →
          zone.lookup (tagOf [0, t2]) ≠ some (GoVal.recs rs)) →
        buildResponse zones (mkRequest hdr (wireQuestion labels 0 t2 c1 c2) spare) =
          some (hdr.take 2 ++ flags ++ [0, 1] ++ [0, 0] ++ [0, 0] ++ [0, 0] ++ [0, 1])) ∧
      (∀ zone, getZone zones (labels.map labelString ++ [""]) = some zone →
          zone.lookup (tagOf [0, t2]) = some (GoVal.recs []) →
        buildResponse zones (mkRequest hdr (wireQuestion labels 0 t2 c1 c2) spare) =
          some (hdr.take 2 ++ flags ++ [0, 1] ++ [0, 0] ++ [0, 0] ++ [0, 0] ++
            buildQuestion (labels.map labelString ++ [""]) (tagOf [0, t2]))) := by
  obtain ⟨flags, hf, _, hb⟩ := buildResponse_request zones hdr (wireQuestion labels 0 t2 c1 c2)
    spare hh
  have hd := getQuestionDomain_wire labels hok t2 [c1, c2] spare
  have hr := getRecs_of_domain zones _ _ _ hd
  refine ⟨flags, hf, ?_, ?_⟩
  · intro hno
    have hr2 : getRecs zones { elems := encodeLabels labels ++ [0, 0, t2, c1, c2], spare := spare } =
        some ([], "", []) := by
      rw [hr]
      cases hz : getZone zones (labels.map labelString ++ [""]) with
      | none => rfl
      | some zone =>
        simp only
        split
        · rename_i rs h3
          exact absurd h3 (hno zone rs hz)
        · rfl
    rw [hb]
    unfold wireQuestion
    rw [hr2]
    rfl
  · intro zone hz hl
    rw [hz] at hr
    simp only [hl] at hr
    rw [hb]
    unfold wireQuestion
    rw [hr]
    simp [buildBody, putUint16]

/-- C4, amended, at the request for `example.com` with type `00 10` and the
zone keyed `example.com.`, and at the A-type request and the zone whose `a`
entry is an empty record slice. -/
theorem no_records_response_witness :
    (∃ flags, getFlags (Slice.ofList ((exampleHeader.drop 2).take 2)) = some flags ∧
      buildResponse zonesDot (mkRequest exampleHeader (wireQuestion exampleLabels 0 16 0 1) []) =
        some (exampleHeader.take 2 ++ flags ++ [0, 1] ++ [0, 0] ++ [0, 0] ++ [0, 0] ++ [0, 1])) ∧
    (∃ flags, getFlags (Slice.ofList ((exampleHeader.drop 2).take 2)) = some flags ∧
      buildResponse zonesEmptyA (mkRequest exampleHeader (wireQuestion exampleLabels 0 1 0 1) []) =
        some (exampleHeader.take 2 ++ flags ++ [0, 1] ++ [0, 0] ++ [0, 0] ++ [0, 0] ++
          buildQuestion (exampleLabels.map labelString ++ [""]) (tagOf [0, 1]))) := by
  constructor
  · obtain ⟨flags, hf, h1, _⟩ := no_records_response zonesDot exampleHeader exampleLabels 16 0 1 []
      rfl (by decide)
    refine ⟨flags, hf, h1 ?_⟩
    intro zone rs hz hl
    have e : getZone zonesDot (exampleLabels.map labelString ++ [""]) =
        some [("$origin", GoVal.str "example.com."), ("a", GoVal.recs [exampleRecord])] := rfl
    rw [e] at hz
    injection hz with hz
    subst hz
    have e2 : List.lookup (tagOf [0, 16])
        [("$origin", GoVal.str "example.com."), ("a", GoVal.recs [exampleRecord])] = none := rfl
    rw [e2] at hl
    exact absurd hl (by simp)
  · obtain ⟨flags, hf, _, h2⟩ := no_records_response zonesEmptyA exampleHeader exampleLabels 1 0 1 []
      rfl (by decide)
    exact ⟨flags, hf, h2 [("a", GoVal.recs [])] rfl rfl⟩

/-! ## `buildQuestion` and the round trip -/

theorem foldl_chars (cs : List Char) :
    ∀ acc : List Nat, cs.foldl (fun q char => q ++ [char.toNat % 256]) acc =
      acc ++ cs.map fun char => char.toNat % 256 := by
  induction cs with
  | nil => intro acc; simp
  | cons c cs ih => intro acc; simp [ih]

theorem foldl_parts (domain : List String) :
    ∀ acc : List Nat,
      domain.foldl
        (fun qbytes part =>
          part.data.foldl (fun qbytes char => qbytes ++ [char.toNat % 256])
            (qbytes ++ [part.utf8ByteSize % 256]))
        acc = acc ++ concatBytes (domain.map encodePart) := by
  induction domain with
  | nil => intro acc; simp [concatBytes]
  | cons p ps ih =>
    intro acc
    rw [List.foldl_cons, ih, foldl_chars]
    simp only [List.map_cons, concatBytes, encodePart, List.append_assoc, List.singleton_append,
      List.cons_append, List.nil_append]

/-- The output of `buildQuestion`: the bytes of each label, the type bytes
when the tag is `a`, the class bytes. -/
theorem buildQuestion_eq (domain : List String) (tag : String) :
    buildQuestion domain tag =
      concatBytes (domain.map encodePart) ++ (if tag = "a" then [0, 1] else []) ++ [0, 1] := by
  unfold buildQuestion
  simp only [foldl_parts, List.nil_append]
  split <;> simp

theorem utf8Size_ascii (c : Char) (h : c.toNat < 128) : c.utf8Size = 1 := by
  unfold Char.utf8Size
  have : c.val ≤ 127 := by
    rw [UInt32.le_def]
    show c.val.toNat ≤ 127
    unfold Char.toNat at h
    omega
  simp [this]

theorem utf8ByteSize_ascii (cs : List Char) (h : ∀ c ∈ cs, c.toNat < 128) :
    String.utf8ByteSize ⟨cs⟩ = cs.length := by
  induction cs with
  | nil => rfl
  | cons c cs ih =>
    have e : String.utf8ByteSize ⟨c :: cs⟩ = String.utf8ByteSize ⟨cs⟩ + c.utf8Size := rfl
    rw [e, ih fun x hx => h x (List.mem_cons_of_mem _ hx),
      utf8Size_ascii c (h c (List.mem_cons_self _ _))]
    rfl

theorem encodePart_ascii (s : String) (h : AsciiLabel s) :
    encodePart s = (labelBytes s).length :: labelBytes s := by
  obtain ⟨h1, h2, h3⟩ := h
  obtain ⟨cs⟩ := s
  have hl : cs.length ≤ 63 := h2
  unfold encodePart labelBytes
  rw [utf8ByteSize_ascii cs fun c hc => (h3 c hc).2]
  simp only [List.length_map]
  congr 1
  · omega
  · apply List.map_congr_left
    intro c hc
    have := (h3 c hc).2
    omega

theorem labelOk_ascii (s : String) (h : AsciiLabel s) : LabelOk (labelBytes s) := by
  obtain ⟨h1, h2, h3⟩ := h
  unfold LabelOk labelBytes
  refine ⟨by simpa using h1, by simpa using h2, ?_⟩
  intro b hb
  obtain ⟨c, hc, rfl⟩ := List.mem_map.mp hb
  have := h3 c hc
  exact ⟨this.1, by omega⟩

theorem labelString_labelBytes (s : String) : labelString (labelBytes s) = s := by
  obtain ⟨cs⟩ := s
  unfold labelString labelBytes
  congr 1
  rw [List.map_map]
  conv_rhs => rw [← List.map_id cs]
  apply List.map_congr_left
  intro c _
  simp

theorem concat_encodePart_ascii (L : List String) (h : ∀ s ∈ L, AsciiLabel s) :
    concatBytes (L.map encodePart) = encodeLabels (L.map labelBytes) := by
  induction L with
  | nil => rfl
  | cons s ss ih =>
    simp only [List.map_cons, concatBytes, encodeLabels,
      encodePart_ascii s (h s (List.mem_cons_self _ _)),
      ih fun x hx => h x (List.mem_cons_of_mem _ hx)]

theorem concatBytes_append (xs ys : List (List Nat)) :
    concatBytes (xs ++ ys) = concatBytes xs ++ concatBytes ys := by
  induction xs with
  | nil => rfl
  | cons x xs ih => simp [concatBytes, ih]

/-- C7, as stated, fails: decoding `buildQuestion(["example", "com"], "a")`
returns the labels `example`, `com` and a third label holding the code point 1
(the low type byte), not the two labels that were encoded. -/
theorem roundtrip_counterexample :
    getQuestionDomain (Slice.ofList (buildQuestion ["example", "com"] "a")) =
      some (["example", "com", stringOfByte 1], [0, 1]) ∧
    AsciiLabel "example" ∧ AsciiLabel "com" ∧
    ["example", "com", stringOfByte 1] ≠ ["example", "com"] :=
  ⟨rfl, by decide, by decide, by decide⟩

/-- C7, amended: for every sequence `L` of labels of 1 to 63 ASCII characters
other than NUL, `getQuestionDomain` applied to `buildQuestion(L ++ [""], "a")`,
the encoding of the labels followed by the empty label that stands for the
terminator, returns `L ++ [""]` as its label sequence, and the type bytes
`00 01`. -/
theorem roundtrip_with_empty_label (L : List String) (spare : List Nat)
    (h : ∀ s ∈ L, AsciiLabel s) :
    getQuestionDomain { elems := buildQuestion (L ++ [""]) "a", spare := spare } =
      some (L ++ [""], [0, 1]) := by
  have hok : ∀ l ∈ L.map labelBytes, LabelOk l := by
    intro l hl
    obtain ⟨s, hs, rfl⟩ := List.mem_map.mp hl
    exact labelOk_ascii s (h s hs)
  have e : buildQuestion (L ++ [""]) "a" =
      encodeLabels (L.map labelBytes) ++ 0 :: 0 :: 1 :: [0, 1] := by
    have e0 : encodePart "" = [0] := rfl
    rw [buildQuestion_eq, List.map_append, concatBytes_append, concat_encodePart_ascii L h]
    simp [concatBytes, e0]
  have hm : (L.map labelBytes).map labelString = L := by
    rw [List.map_map]
    conv_rhs => rw [← List.map_id L]
    apply List.map_congr_left
    intro s _
    exact labelString_labelBytes s
  rw [e, getQuestionDomain_wire _ hok 1 [0, 1] spare, hm]

/-- C7, amended, at the labels `example` and `com`. -/
theorem roundtrip_with_empty_label_witness :
    (∀ s ∈ ["example", "com"], AsciiLabel s) ∧
    getQuestionDomain { elems := buildQuestion (["example", "com"] ++ [""]) "a", spare := [] } =
      some (["example", "com"] ++ [""], [0, 1]) :=
  ⟨by decide, roundtrip_with_empty_label ["example", "com"] [] (by decide)⟩

/-! ## Decoding the question -/

/-- C8, as stated, fails: a name that is an immediate terminator decodes to
one empty label, not to the empty label sequence; the name `example.com`
decodes to three labels, the last one empty; and with the type bytes `01 00`
the name `example.com` decodes to a third label holding the code point 1. -/
theorem labels_counterexample :
    getQuestionDomain (Slice.ofList (wireQuestion [] 0 1 0 1)) = some ([""], [0, 1]) ∧
    getQuestionDomain (Slice.ofList (wireQuestion exampleLabels 0 1 0 1)) =
      some (["example", "com", ""], [0, 1]) ∧
    getQuestionDomain (Slice.ofList (wireQuestion exampleLabels 1 0 0 1)) =
      some (["example", "com", stringOfByte 1], [0, 0]) ∧
    ([""] : List String) ≠ [] ∧ exampleLabels.map labelString = ["example", "com"] :=
  ⟨rfl, rfl, rfl, by decide, rfl⟩

/-- C8, amended: for every well-formed question section with `k >= 0` labels
whose type code has high byte `00`, the label sequence `getQuestionDomain`
returns is those `k` labels in order, each as the string of its bytes read as
code points, followed by one empty label; a name that is an immediate
terminator yields the single empty label. -/
theorem labels_then_empty_label (labels : List (List Nat)) (t2 c1 c2 : Nat) (spare : List Nat)
    (hok : ∀ l ∈ labels, LabelOk l) :
    (getQuestionDomain { elems := wireQuestion labels 0 t2 c1 c2, spare := spare }).map Prod.fst =
      some (labels.map labelString ++ [""]) ∧
    (getQuestionDomain { elems := wireQuestion [] 0 t2 c1 c2, spare := spare }).map Prod.fst =
      some [""] := by
  have h1 := getQuestionDomain_wire labels hok t2 [c1, c2] spare
  have h2 := getQuestionDomain_wire [] (fun l hl => absurd hl (List.not_mem_nil _)) t2 [c1, c2] spare
  unfold wireQuestion
  constructor
  · rw [show encodeLabels labels ++ [0, 0, t2, c1, c2] =
      encodeLabels labels ++ 0 :: 0 :: t2 :: [c1, c2] from rfl, h1]
    rfl
  · rw [show encodeLabels [] ++ [0, 0, t2, c1, c2] =
      encodeLabels [] ++ 0 :: 0 :: t2 :: [c1, c2] from rfl, h2]
    rfl

/-- C8, amended, at the name `example.com` with type `00 01`. -/
theorem labels_then_empty_label_witness :
    (∀ l ∈ exampleLabels, LabelOk l) ∧
    ((getQuestionDomain { elems := wireQuestion exampleLabels 0 1 0 1, spare := [] }).map Prod.fst =
      some (exampleLabels.map labelString ++ [""]) ∧
    (getQuestionDomain { elems := wireQuestion [] 0 1 0 1, spare := [] }).map Prod.fst =
      some [""]) :=
  ⟨by decide, labels_then_empty_label exampleLabels 1 0 1 [] (by decide)⟩

/-- On a well-formed question section whose type code has high byte `00`,
the type value `getQuestionDomain` returns is the two bytes that follow the
terminating zero. -/
theorem query_type_bytes (labels : List (List Nat)) (t2 c1 c2 : Nat) (spare : List Nat)
    (hok : ∀ l ∈ labels, LabelOk l) :
    (getQuestionDomain { elems := wireQuestion labels 0 t2 c1 c2, spare := spare }).map Prod.snd =
      some [0, t2] ∧
    ((wireQuestion labels 0 t2 c1 c2).drop ((encodeLabels labels).length + 1)).take 2 = [0, t2] := by
  have h1 := getQuestionDomain_wire labels hok t2 [c1, c2] spare
  unfold wireQuestion
  constructor
  · rw [show encodeLabels labels ++ [0, 0, t2, c1, c2] =
      encodeLabels labels ++ 0 :: 0 :: t2 :: [c1, c2] from rfl, h1]
    rfl
  · rw [show encodeLabels labels ++ [0, 0, t2, c1, c2] =
      (encodeLabels labels ++ [0]) ++ [0, t2, c1, c2] by simp]
    rw [show (encodeLabels labels).length + 1 = (encodeLabels labels ++ [0]).length by simp,
      List.drop_left]
    rfl

/-- C9: the code at a failing input.  The question section `07 example 03 com
00 | 01 01 | 00 01` (type 257, class 1) is well formed and the two bytes after
its terminating zero are `01 01`, but `getQuestionDomain` returns the class
bytes `00 01` as the type value (and a third label made of the two type
bytes), so that `getRecs` resolves the query with the tag `a`; on the root name
with type bytes `01 00` it returns `00 00`. -/
theorem query_type_high_byte :
    (∀ l ∈ exampleLabels, LabelOk l) ∧
    wireQuestion exampleLabels 1 1 0 1 =
      [7, 101, 120, 97, 109, 112, 108, 101, 3, 99, 111, 109, 0, 1, 1, 0, 1] ∧
    ((wireQuestion exampleLabels 1 1 0 1).drop ((encodeLabels exampleLabels).length + 1)).take 2 =
      [1, 1] ∧
    getQuestionDomain (Slice.ofList (wireQuestion exampleLabels 1 1 0 1)) =
      some (["example", "com", stringOfByte 1 ++ stringOfByte 1], [0, 1]) ∧
    getQuestionDomain (Slice.ofList (wireQuestion [] 1 0 0 1)) =
      some ([stringOfByte 1], [0, 0]) :=
  ⟨by decide, rfl, rfl, rfl, rfl⟩

/-! ## The resolver -/

/-- C10: the code at a failing input.  For the A-type question for
`example.com` the labels joined with `.` give the key `example.com.`; the zone
file of that origin, as `loadZones` decodes it, exists under the key and has a
non-empty `a` record sequence, and the type bytes are `00 01`; yet `getRecs`
returns no records, the empty tag and no labels: the sequence is a
`[]interface{}`, on which the type assertion fails. -/
theorem resolver_drops_records :
    storeJson zonesJsonDot = true ∧
    getQuestionDomain (Slice.ofList (wireQuestion exampleLabels 0 1 0 1)) =
      some (["example", "com", ""], [0, 1]) ∧
    String.intercalate "." ["example", "com", ""] = "example.com." ∧
    getZone zonesJsonDot ["example", "com", ""] =
      some [("$origin", GoVal.str "example.com."),
        ("a", GoVal.slice [GoVal.map exampleRecord])] ∧
    List.lookup "a" [("$origin", GoVal.str "example.com."),
        ("a", GoVal.slice [GoVal.map exampleRecord])] =
      some (GoVal.slice [GoVal.map exampleRecord]) ∧
    getRecs zonesJsonDot (Slice.ofList (wireQuestion exampleLabels 0 1 0 1)) =
      some ([], "", []) :=
  ⟨rfl, rfl, rfl, rfl, rfl, rfl⟩

/-- The two returns of `getRecs`, for every question that `getQuestionDomain`
decodes to the labels `domain` and the type bytes `qt`: the tag is `a` for the
type bytes `00 01` and empty for any other; the records of the zone keyed by the
labels joined with `.` are returned, with the tag and the labels, when the type
assertion succeeds, that is when the zone holds a `[]map[string]interface{}`
under the tag; in every other case the result is an empty record sequence, the
empty tag and no labels. -/
theorem resolver_mapping (zones : ZoneStore) (data : Slice) (domain : List String)
    (qt : List Nat) (h : getQuestionDomain data = some (domain, qt)) :
    (qt = [0, 1] → tagOf qt = "a") ∧ (qt ≠ [0, 1] → tagOf qt = "") ∧
    (∀ zone rs, zones.lookup (String.intercalate "." domain) = some zone →
        zone.lookup (tagOf qt) = some (GoVal.recs rs) →
        getRecs zones data = some (rs, tagOf qt, domain)) ∧
    ((∀ zone rs, zones.lookup (String.intercalate "." domain) = some zone →
        zone.lookup (tagOf qt) ≠ some (GoVal.recs rs)) →
      getRecs zones data = some ([], "", [])) := by
  have hr := getRecs_of_domain zones data domain qt h
  refine ⟨fun e => by simp [tagOf, e], fun e => by simp [tagOf, e], ?_, ?_⟩
  · intro zone rs hz hl
    have hz2 : getZone zones domain = some zone := hz
    rw [hz2] at hr
    simp only [hl] at hr
    exact hr
  · intro hno
    rw [hr]
    cases hz : getZone zones domain with
    | none => rfl
    | some zone =>
      simp only
      split
      · rename_i rs h3
        exact absurd h3 (hno zone rs hz)
      · rfl

/-! ## `rectoBytes` on any decimal text of the octets -/

theorem foldl_digits_ge (cs : List Char) :
    ∀ n : Nat, n ≤ cs.foldl (fun n c => n * 10 + (c.toNat - 48)) n := by
  induction cs with
  | nil => intro n; exact Nat.le_refl _
  | cons c cs ih =>
    intro n
    have := ih (n * 10 + (c.toNat - 48))
    simp only [List.foldl_cons]
    omega

theorem atoiFast_digits (cs : List Char) (hd : ∀ c ∈ cs, 48 ≤ c.toNat ∧ c.toNat ≤ 57) :
    ∀ n : Nat, atoiFast cs n = some (cs.foldl (fun n c => n * 10 + (c.toNat - 48)) n) := by
  induction cs with
  | nil => intro n; rfl
  | cons c cs ih =>
    intro n
    have hc := hd c (List.mem_cons_self _ _)
    unfold atoiFast
    rw [if_pos hc, ih fun x hx => hd x (List.mem_cons_of_mem _ hx)]
    rfl

theorem parseUintLoop_digits (cs : List Char) (hd : ∀ c ∈ cs, 48 ≤ c.toNat ∧ c.toNat ≤ 57) :
    ∀ n : Nat, cs.foldl (fun n c => n * 10 + (c.toNat - 48)) n < 256 →
      parseUintLoop cs n =
        ParseOutcome.value (cs.foldl (fun n c => n * 10 + (c.toNat - 48)) n) := by
  induction cs with
  | nil => intro n _; rfl
  | cons c cs ih =>
    intro n hlt
    have hc := hd c (List.mem_cons_self _ _)
    simp only [List.foldl_cons] at hlt
    have hge := foldl_digits_ge cs (n * 10 + (c.toNat - 48))
    unfold parseUintLoop
    rw [if_pos hc, if_neg (by omega), if_neg (by omega),
      ih (fun x hx => hd x (List.mem_cons_of_mem _ hx)) _ hlt]
    rfl

theorem digits_no_dot (s : List Char) (hd : ∀ c ∈ s, 48 ≤ c.toNat ∧ c.toNat ≤ 57) :
    '.' ∉ s := by
  intro hm
  have := hd '.' hm
  have h46 : ('.' : Char).toNat = 46 := rfl
  omega

/-- On a decimal text of an octet, `byte(Atoi(..))` is the octet, on the fast
path of `Atoi` and on its slow path. -/
theorem atoi_octetText (s : List Char) (a : Nat) (h : IsOctetText s a) :
    byteOfInt (atoi (String.mk s)) = a := by
  obtain ⟨hne, hd, hv, ha⟩ := h
  have hsize : (String.mk s).utf8ByteSize = s.length :=
    utf8ByteSize_ascii s fun c hc => by have := hd c hc; omega
  obtain ⟨c, cs, rfl⟩ : ∃ c cs, s = c :: cs := by
    cases s with
    | nil => exact absurd rfl hne
    | cons c cs => exact ⟨c, cs, rfl⟩
  have hc := hd c (List.mem_cons_self _ _)
  have hminus : c ≠ '-' := by
    intro e; rw [e] at hc
    have h45 : ('-' : Char).toNat = 45 := rfl
    omega
  have hplus : c ≠ '+' := by
    intro e; rw [e] at hc
    have h43 : ('+' : Char).toNat = 43 := rfl
    omega
  have hval : (c :: cs).foldl (fun n c => n * 10 + (c.toNat - 48)) 0 = a := hv
  have hbyte : byteOfInt (a : Int) = a := by
    unfold byteOfInt
    omega
  unfold atoi
  rw [hsize]
  split
  · simp only [hminus, hplus, or_self, ↓reduceIte, atoiFast_digits (c :: cs) hd 0, hval]
    simpa using hbyte
  · unfold parseInt
    simp only [hminus, hplus, or_self, ↓reduceIte, decide_False,
      parseUintLoop_digits (c :: cs) hd 0 (by rw [hval]; exact ha), hval]
    have h1 : ¬ (9223372036854775808 ≤ a) := by omega
    simp only [h1, ge_iff_le, Bool.not_false, Bool.false_eq_true, and_false, false_and,
      and_true, true_and, ↓reduceIte]
    simpa [h1] using hbyte

theorem stringsSplit_octets (sa sb sc sd : List Char) (a b c d : Nat)
    (ha : IsOctetText sa a) (hb : IsOctetText sb b) (hc : IsOctetText sc c)
    (hd : IsOctetText sd d) :
    stringsSplit (String.mk (sa ++ '.' :: (sb ++ '.' :: (sc ++ '.' :: sd)))) =
      [String.mk sa, String.mk sb, String.mk sc, String.mk sd] := by
  unfold stringsSplit
  simp only
  rw [splitDot_append_dot _ _ (digits_no_dot sa ha.2.1),
    splitDot_append_dot _ _ (digits_no_dot sb hb.2.1),
    splitDot_append_dot _ _ (digits_no_dot sc hc.2.1),
    splitDot_no_dot _ (digits_no_dot sd hd.2.1)]
  rfl

theorem putUint32_bigEndian (ttl : Nat) (h : ttl < 4294967296) :
    putUint32 ttl = [ttl / 16777216, ttl / 65536 % 256, ttl / 256 % 256, ttl % 256] ∧
    ttl = ttl / 16777216 * 16777216 + ttl / 65536 % 256 * 65536 + ttl / 256 % 256 * 256 +
      ttl % 256 ∧ ttl / 16777216 < 256 := by
  unfold putUint32
  refine ⟨?_, by omega, by omega⟩
  congr 1
  omega

/-- C11: for every ttl below 2^32 and every value `a.b.c.d` whose four
segments are decimal texts of integers in 0..255, `rectoBytes("a", ttl,
value)` is exactly the 14 bytes `C0 0C`, `00 01`, `00 01`, the four bytes of
the big-endian encoding of the ttl, and the bytes `a`, `b`, `c`, `d`. -/
theorem rectoBytes_a_record (ttl : Nat) (sa sb sc sd : List Char) (a b c d : Nat)
    (httl : ttl < 4294967296)
    (ha : IsOctetText sa a) (hb : IsOctetText sb b) (hc : IsOctetText sc c)
    (hd : IsOctetText sd d) :
    rectoBytes "a" ttl (String.mk (sa ++ '.' :: (sb ++ '.' :: (sc ++ '.' :: sd)))) =
      [0xc0, 0x0c, 0x00, 0x01, 0x00, 0x01,
        ttl / 16777216, ttl / 65536 % 256, ttl / 256 % 256, ttl % 256, a, b, c, d] ∧
    ttl = ttl / 16777216 * 16777216 + ttl / 65536 % 256 * 65536 + ttl / 256 % 256 * 256 +
      ttl % 256 ∧
    ttl / 16777216 < 256 := by
  obtain ⟨h1, h2, h3⟩ := putUint32_bigEndian ttl httl
  refine ⟨?_, h2, h3⟩
  unfold rectoBytes
  simp only [↓reduceIte, foldl_append_single (fun p => byteOfInt (atoi p)),
    stringsSplit_octets sa sb sc sd a b c d ha hb hc hd, List.map_cons, List.map_nil,
    atoi_octetText sa a ha, atoi_octetText sb b hb, atoi_octetText sc c hc,
    atoi_octetText sd d hd, h1]
  rfl

/-- C11 at ttl 60 and the value `10.0.0.1`. -/
theorem rectoBytes_a_record_witness :
    ((60 : Nat) < 4294967296 ∧ IsOctetText "10".data 10 ∧ IsOctetText "0".data 0 ∧
      IsOctetText "1".data 1) ∧
    (rectoBytes "a" 60 (String.mk ("10".data ++ '.' :: ("0".data ++ '.' :: ("0".data ++ '.' ::
        "1".data)))) =
      [0xc0, 0x0c, 0x00, 0x01, 0x00, 0x01,
        60 / 16777216, 60 / 65536 % 256, 60 / 256 % 256, 60 % 256, 10, 0, 0, 1] ∧
    60 = 60 / 16777216 * 16777216 + 60 / 65536 % 256 * 65536 + 60 / 256 % 256 * 256 + 60 % 256 ∧
    60 / 16777216 < 256) :=
  ⟨⟨by decide, by decide, by decide, by decide⟩,
    rectoBytes_a_record 60 "10".data "0".data "0".data "1".data 10 0 0 1 (by decide) (by decide)
      (by decide) (by decide) (by decide)⟩

/-! ## The layout of the question section -/

/-- C12: for every label sequence and every tag, `buildQuestion` returns, for
each label in order, one length byte (the byte length of the label modulo 256)
followed by one byte per character of the label (its code point modulo 256);
then the bytes `00 01` exactly when the tag is `a`; then the class bytes
`00 01`; and nothing else. -/
theorem buildQuestion_layout (domainName : List String) (rectype : String) :
    buildQuestion domainName rectype =
      concatBytes (domainName.map fun part =>
        (part.utf8ByteSize % 256) :: part.data.map fun char => char.toNat % 256) ++
      (if rectype = "a" then [0x00, 0x01] else []) ++ [0x00, 0x01] ∧
    (∀ part ∈ domainName,
      ((part.utf8ByteSize % 256) :: part.data.map fun char => char.toNat % 256).length =
        1 + part.length) := by
  constructor
  · exact buildQuestion_eq domainName rectype
  · intro part _
    simp only [List.length_cons, List.length_map]
    show part.data.length + 1 = 1 + part.data.length
    omega

/-! ## The flags of the response -/

theorem getFlags_pair (f0 f1 : Nat) (spare : List Nat) :
    getFlags { elems := [f0, f1], spare := spare } =
      some [0x80 ||| f0 >>> 3 ||| 0x04 ||| 0x02 ||| 0x01, 0x80 ||| 0 ||| 0] := rfl

set_option maxRecDepth 100000 in
theorem flag_bits :
    ∀ f0 < 256,
      (0x80 ||| f0 >>> 3 ||| 0x04 ||| 0x02 ||| 0x01) &&& 0x80 = 0x80 ∧
      (0x80 ||| f0 >>> 3 ||| 0x04 ||| 0x02 ||| 0x01) &&& 0x04 = 0x04 ∧
      (0x80 ||| f0 >>> 3 ||| 0x04 ||| 0x02 ||| 0x01) &&& 0x02 = 0x02 ∧
      (0x80 ||| f0 >>> 3 ||| 0x04 ||| 0x02 ||| 0x01) &&& 0x01 = 0x01 ∧
      (0x80 ||| f0 >>> 3 ||| 0x04 ||| 0x02 ||| 0x01) < 256 := by
  decide

/-- C13, as stated, fails: for the request flags `01 00` the first byte
`getFlags` returns is `87`, whose bit `0x02` (TC) is set. -/
theorem flags_counterexample :
    getFlags (Slice.ofList [0x01, 0x00]) = some [0x87, 0x80] ∧ 0x87 &&& 0x02 ≠ 0 :=
  ⟨rfl, by decide⟩

/-- C13, amended: for every 2-byte request flags value, the two bytes
`getFlags` returns have QR=1 (bit `0x80` of byte 0), AA=1 (bit `0x04`), TC=1
(bit `0x02`), RD=1 (bit `0x01`), RA=1 (bit `0x80` of byte 1), and Z=0 and
RCODE=0 (the low 7 bits of byte 1 are zero), whatever the request's own bits
are. -/
theorem flags_policy (f0 f1 : Nat) (spare : List Nat) (h0 : f0 < 256) :
    ∃ b0 b1, getFlags { elems := [f0, f1], spare := spare } = some [b0, b1] ∧
      b0 &&& 0x80 = 0x80 ∧ b0 &&& 0x04 = 0x04 ∧ b0 &&& 0x02 = 0x02 ∧ b0 &&& 0x01 = 0x01 ∧
      b1 &&& 0x80 = 0x80 ∧ b1 &&& 0x7f = 0 ∧ b0 < 256 ∧ b1 < 256 := by
  obtain ⟨h1, h2, h3, h4, h5⟩ := flag_bits f0 h0
  exact ⟨_, _, getFlags_pair f0 f1 spare, h1, h2, h3, h4, by decide, by decide, h5, by decide⟩

/-- C13, amended, at the request flags `00 00`, whose RD bit is clear. -/
theorem flags_policy_witness :
    (0 : Nat) < 256 ∧
    ∃ b0 b1, getFlags { elems := [0, 0], spare := [] } = some [b0, b1] ∧
      b0 &&& 0x80 = 0x80 ∧ b0 &&& 0x04 = 0x04 ∧ b0 &&& 0x02 = 0x02 ∧ b0 &&& 0x01 = 0x01 ∧
      b1 &&& 0x80 = 0x80 ∧ b1 &&& 0x7f = 0 ∧ b0 < 256 ∧ b1 < 256 :=
  ⟨by decide, flags_policy 0 0 [] (by decide)⟩

/-- C14: the code at a failing input.  For the request flags `28 00` (opcode 5)
`getFlags` returns `87 80`: the opcode field of the result (mask `0x78`) is 0,
the opcode field of the request is `0x28`.  The request byte is shifted right
by three and never shifted back, so its opcode bits land on the bits `0x0f`;
for `10 00` (opcode 2) the result is `87 80` as well. -/
theorem opcode_not_echoed :
    getFlags (Slice.ofList [0x28, 0x00]) = some [0x87, 0x80] ∧
    0x87 &&& 0x78 = 0 ∧ 0x28 &&& 0x78 = 0x28 ∧
    getFlags (Slice.ofList [0x10, 0x00]) = some [0x87, 0x80] ∧ 0x10 &&& 0x78 = 0x10 :=
  ⟨rfl, by decide, by decide, rfl, by decide⟩

/-! ## A zero byte inside a label -/

/-- Reading label content that holds a zero byte before the declared length is
reached: the loop ends at the zero byte. -/
theorem questionLoop_zero_in_label (p : List Nat) :
    ∀ (rest : List Nat) (n : Nat) (ds : String) (parts : List String) (k y : Nat),
      (∀ b ∈ p, b ≠ 0) → k + p.length < n →
      (questionLoop (p ++ 0 :: rest)
          { state := 1, expectedLength := n, domainString := ds, domainParts := parts,
            x := k, y := y }).domainParts =
        parts ++ (if k + p.length + 1 = n then [ds ++ labelString p, ""]
          else [ds ++ labelString p]) ∧
      (questionLoop (p ++ 0 :: rest)
          { state := 1, expectedLength := n, domainString := ds, domainParts := parts,
            x := k, y := y }).y = y + p.length := by
  induction p with
  | nil =>
    intro rest n ds parts k y _ hk
    have e : ds ++ labelString [] = ds := by
      apply String.ext
      simp [labelString]
    simp only [List.nil_append, List.length_nil, Nat.add_zero, e]
    by_cases hkn : k + 1 = n
    · simp [questionLoop, hkn]
    · simp [questionLoop, hkn]
  | cons b p ih =>
    intro rest n ds parts k y hnz hk
    have hb : b ≠ 0 := hnz b (List.mem_cons_self _ _)
    have hnz2 : ∀ c ∈ p, c ≠ 0 := fun c hc => hnz c (List.mem_cons_of_mem _ hc)
    simp only [List.length_cons] at hk
    have hkn : ¬ (k + 1 = n) := by omega
    have := ih rest n (ds ++ stringOfByte b) parts (k + 1) (y + 1) hnz2 (by omega)
    simp only [List.cons_append, questionLoop, hb, hkn, ne_eq, not_false_eq_true, ↓reduceIte,
      List.append_eq, List.length_cons]
    rw [this.1, this.2, append_labelString_cons]
    constructor
    · have e : k + 1 + p.length + 1 = n ↔ k + (p.length + 1) + 1 = n := by omega
      simp only [e]
    · omega

/-- C15, as stated, fails: in `03 'a' 00 'b' 03 'com' 00 | 00 01 | 00 01` the
first label declares three bytes and holds a zero byte after `a`; the decoder
returns the single label `a` and the type value `00 62`: it neither reads the
`b` of that label nor the label `com`. -/
theorem zero_byte_counterexample :
    getQuestionDomain (Slice.ofList [3, 97, 0, 98, 3, 99, 111, 109, 0, 0, 1, 0, 1]) =
      some (["a"], [0, 98]) ∧
    (["a"] : List String) ≠ ["ab", "com", ""] ∧ (["a"] : List String) ≠ ["ab", "com"] :=
  ⟨rfl, by decide, by decide⟩

/-- C15, amended: for every question buffer made of well-formed labels
followed by a label that declares `n` content bytes and holds a zero byte after
the content bytes `p`, fewer than `n`: `getQuestionDomain` leaves the zero byte
out of the label and ends the name at that byte.  The labels it returns are the
well-formed labels and the label `p` (followed by one empty label when the
zero byte is the last of the `n` declared bytes); no later byte is read as
label content, and the type value is the two bytes that start at the zero
byte. -/
theorem zero_byte_ends_name (labels : List (List Nat)) (n : Nat) (p : List Nat) (r : Nat)
    (rest spare : List Nat)
    (hok : ∀ l ∈ labels, LabelOk l) (hp : ∀ b ∈ p, b ≠ 0) (hn : p.length < n) :
    getQuestionDomain
        { elems := encodeLabels labels ++ n :: (p ++ 0 :: r :: rest), spare := spare } =
      some (labels.map labelString ++
          (if p.length + 1 = n then [labelString p, ""] else [labelString p]),
        [0, r]) := by
  obtain ⟨e2, h⟩ := questionLoop_labels labels (n :: (p ++ 0 :: r :: rest)) 0 [] 0 hok
  obtain ⟨h1, h2⟩ := questionLoop_zero_in_label p (r :: rest) n "" (labels.map labelString) 0
    ((encodeLabels labels).length + 1) hp (by omega)
  have hs := slice_after_prefix (encodeLabels labels ++ n :: p) 0 r rest spare
  have he : (encodeLabels labels ++ n :: p) ++ 0 :: r :: rest =
      encodeLabels labels ++ n :: (p ++ 0 :: r :: rest) := by simp
  rw [he] at hs
  have hlen : (encodeLabels labels ++ n :: p).length = (encodeLabels labels).length + 1 + p.length := by
    simp only [List.length_append, List.length_cons]; omega
  rw [hlen] at hs
  have hstep : questionLoop (encodeLabels labels ++ n :: (p ++ 0 :: r :: rest)) QState.init =
      questionLoop (p ++ 0 :: r :: rest)
        { state := 1, expectedLength := n, domainString := "",
          domainParts := labels.map labelString, x := 0,
          y := (encodeLabels labels).length + 1 } := by
    unfold QState.init
    rw [h]
    simp [questionLoop]
  unfold getQuestionDomain
  simp only [hstep, h1, h2, hs, empty_append_labelString, Nat.zero_add, Option.bind_eq_bind,
    Option.some_bind, Option.pure_def]

/-- C15, amended, at the buffer `03 'a' 00 'b' 03 'com' 00 | 00 01 | 00 01`. -/
theorem zero_byte_ends_name_witness :
    ((∀ l ∈ ([] : List (List Nat)), LabelOk l) ∧ (∀ b ∈ [97], b ≠ 0) ∧ [97].length < 3) ∧
    getQuestionDomain
        { elems := encodeLabels [] ++ 3 :: ([97] ++ 0 :: 98 :: [3, 99, 111, 109, 0, 0, 1, 0, 1]),
          spare := [] } =
      some (([] : List (List Nat)).map labelString ++
          (if [97].length + 1 = 3 then [labelString [97], ""] else [labelString [97]]),
        [0, 98]) :=
  ⟨⟨by decide, by decide, by decide⟩,
    zero_byte_ends_name [] 3 [97] 98 [3, 99, 111, 109, 0, 0, 1, 0, 1] [] (by decide) (by decide)
      (by decide)⟩

/-! ## Out-of-range slices -/

set_option maxRecDepth 100000 in
/-- C16: the code at failing inputs.  The request `12 34 01 00 00 01 00 00 00 00
00 00 | 07 example 03 com 00 | 01 01 | 01 01` is a 12-byte header and a
well-formed question, and in a buffer whose capacity is its length the slice
`data[y:y+2]` of `getQuestionDomain` is out of range: no zero byte follows the
terminator, the loop runs to the end of the buffer, and `buildResponse` panics.
The same happens in the 512-byte receive buffer with a 512-byte request whose
question holds the labels `longLabels`. -/
theorem decode_out_of_range :
    (∀ l ∈ exampleLabels, LabelOk l) ∧
    getQuestionDomain (Slice.ofList (wireQuestion exampleLabels 1 1 1 1)) = none ∧
    buildResponse zonesDot (mkRequest exampleHeader (wireQuestion exampleLabels 1 1 1 1) []) =
      none ∧
    (∀ l ∈ longLabels, LabelOk l) ∧
    (mkRequest exampleHeader (wireQuestion longLabels 1 1 1 1) []).len = 512 ∧
    buildResponse zonesDot (mkRequest exampleHeader (wireQuestion longLabels 1 1 1 1) []) =
      none :=
  ⟨by decide, rfl, rfl, by decide, rfl, rfl⟩

/-! ## Zone stores decoded from JSON -/

theorem isJsonFields_mem (kv : List (String × GoVal)) (h : isJsonFields kv = true) :
    ∀ k v, (k, v) ∈ kv → v.isJson = true := by
  induction kv with
  | nil => intro k v hm; exact absurd hm (List.not_mem_nil _)
  | cons p ps ih =>
    obtain ⟨a, b⟩ := p
    simp only [isJsonFields, Bool.and_eq_true] at h
    intro k v hm
    rcases List.mem_cons.mp hm with e | hm
    · injection e with _ e2
      rw [e2]
      exact h.1
    · exact ih h.2 k v hm

/-- In a store decoded from JSON no zone holds a record slice. -/
theorem storeJson_no_recs (zones : ZoneStore) (hj : storeJson zones = true)
    (domain : List String) (zone : GoMap) (tag : String) (rs : List GoMap)
    (hz : getZone zones domain = some zone) : zone.lookup tag ≠ some (GoVal.recs rs) := by
  intro hl
  obtain ⟨k1, hk1⟩ := lookup_mem _ _ _ hz
  obtain ⟨k2, hk2⟩ := lookup_mem _ _ _ hl
  unfold storeJson at hj
  rw [List.all_eq_true] at hj
  have h1 := isJsonFields_mem zone (hj _ hk1) k2 _ hk2
  simp [GoVal.isJson] at h1

theorem getRecs_fallback (zones : ZoneStore) (q : Slice) (domain : List String)
    (qt : List Nat) (hd : getQuestionDomain q = some (domain, qt))
    (hno : ∀ zone rs, getZone zones domain = some zone →
      zone.lookup (tagOf qt) ≠ some (GoVal.recs rs)) :
    getRecs zones q = some ([], "", []) := by
  rw [getRecs_of_domain zones q domain qt hd]
  cases hz : getZone zones domain with
  | none => rfl
  | some zone =>
    simp only
    split
    · rename_i rs h3
      exact absurd h3 (hno zone rs hz)
    · rfl

theorem getRecs_none (zones : ZoneStore) (q : Slice) (h : getQuestionDomain q = none) :
    getRecs zones q = none := by
  unfold getRecs
  simp [h]

/-- The response when `getRecs` takes its fallback return. -/
theorem response_of_fallback (zones : ZoneStore) (data : Slice) (resp : List Nat)
    (h : buildResponse zones data = some resp)
    (hf : ∀ q, data.sliceFrom 12 = some q → getRecs zones q = some ([], "", [])) :
    ∃ flags, getFlags (Slice.ofList ((data.elems.drop 2).take 2)) = some flags ∧
      resp = data.elems.take 2 ++ flags ++ [0, 1] ++ [0, 0] ++ [0, 0] ++ [0, 0] ++ [0, 1] ∧
      resp.length = 14 := by
  obtain ⟨flags, q, records, tag, domain, fields, hfl, hlen, h12, hq, hr, hfs, he⟩ :=
    buildResponse_inv zones data resp h
  rw [hf q hq] at hr
  simp only [Option.some.injEq, Prod.mk.injEq] at hr
  obtain ⟨hr1, hr2, hr3⟩ := hr
  subst hr1 hr2 hr3
  simp only [recordsFields, Option.some.injEq] at hfs
  subst hfs
  have hq0 : buildQuestion [] "" = [0, 1] := rfl
  have he2 : resp =
      data.elems.take 2 ++ flags ++ [0, 1] ++ [0, 0] ++ [0, 0] ++ [0, 0] ++ [0, 1] := by
    rw [he, hq0]
    simp [concatBytes]
  refine ⟨flags, hfl, he2, ?_⟩
  rw [he2]
  unfold Slice.len at h12
  simp only [List.length_append, List.length_take, hlen, List.length_cons, List.length_nil]
  omega

/-- C17: for every zone store decoded from JSON as `loadZones` produces it,
the type assertion of `getRecs` fails: `getRecs` returns no records, the empty
tag and an empty domain on every question it decodes (and panics only where
the decoding panics), and every response of `buildResponse` has answer count
`00 00`; a response is returned for every request with a 12-byte header whose
question decodes. -/
theorem json_store_never_answers (zones : ZoneStore) (hj : storeJson zones = true) :
    (∀ q, getRecs zones q = (getQuestionDomain q).map fun _ => ([], "", [])) ∧
    (∀ data resp, buildResponse zones data = some resp →
      (resp.drop 6).take 2 = [0, 0] ∧ resp.length = 14) ∧
    (∀ hdr question spare d, hdr.length = 12 →
      getQuestionDomain { elems := question, spare := spare } = some d →
      ∃ resp, buildResponse zones (mkRequest hdr question spare) = some resp) := by
  have hrec : ∀ q, getRecs zones q = (getQuestionDomain q).map fun _ => ([], "", []) := by
    intro q
    cases hd : getQuestionDomain q with
    | none => exact getRecs_none zones q hd
    | some d =>
      obtain ⟨domain, qt⟩ := d
      exact getRecs_fallback zones q domain qt hd
        fun zone rs hz => storeJson_no_recs zones hj domain zone _ rs hz
  refine ⟨hrec, ?_, ?_⟩
  · intro data resp h
    have hf : ∀ q, data.sliceFrom 12 = some q → getRecs zones q = some ([], "", []) := by
      intro q hq
      obtain ⟨_, q2, records, tag, domain, _, _, _, _, hq2, hr, _, _⟩ :=
        buildResponse_inv zones data resp h
      rw [hq] at hq2
      injection hq2 with hq2
      subst hq2
      have := hrec q
      rw [hr] at this
      cases hd : getQuestionDomain q with
      | none => rw [hd] at this; simp at this
      | some d => rw [hd] at this; simp only [Option.map_some'] at this; rw [hr, this]
    obtain ⟨flags, hfl, he, hlen⟩ := response_of_fallback zones data resp h hf
    have h2 : (data.elems.take 2 ++ flags ++ [0, 1]).length = 6 := by
      have := hlen
      rw [he] at this
      simp only [List.length_append, List.length_cons, List.length_nil] at this ⊢
      omega
    refine ⟨?_, hlen⟩
    rw [he]
    have e : data.elems.take 2 ++ flags ++ [0, 1] ++ [0, 0] ++ [0, 0] ++ [0, 0] ++ [0, 1] =
        (data.elems.take 2 ++ flags ++ [0, 1]) ++ ([0, 0] ++ ([0, 0] ++ [0, 0] ++ [0, 1])) := by
      simp
    rw [e, ← h2, List.drop_left]
    rfl
  · intro hdr question spare d hh hd
    obtain ⟨flags, _, _, hb⟩ := buildResponse_request zones hdr question spare hh
    have hr := hrec { elems := question, spare := spare }
    rw [hd] at hr
    rw [hb, hr]
    exact ⟨_, rfl⟩

/-- C17 at the zone file of `example.com` as `loadZones` decodes it. -/
theorem json_store_never_answers_witness :
    storeJson zonesJson = true ∧
    ((∀ q, getRecs zonesJson q = (getQuestionDomain q).map fun _ => ([], "", [])) ∧
    (∀ data resp, buildResponse zonesJson data = some resp →
      (resp.drop 6).take 2 = [0, 0] ∧ resp.length = 14) ∧
    (∀ hdr question spare d, hdr.length = 12 →
      getQuestionDomain { elems := question, spare := spare } = some d →
      ∃ resp, buildResponse zonesJson (mkRequest hdr question spare) = some resp)) :=
  ⟨rfl, json_store_never_answers zonesJson rfl⟩

/-! ## The zone key -/

theorem intercalate_go_append (s : String) (as : List String) :
    ∀ acc : String,
      String.intercalate.go acc s (as ++ [""]) = String.intercalate.go acc s as ++ s := by
  induction as with
  | nil => intro acc; simp [String.intercalate.go]
  | cons a as ih => intro acc; simp [String.intercalate.go, ih]

/-- Joining a non-empty label sequence and one empty label gives the joined
labels followed by the separator. -/
theorem intercalate_append_empty (s : String) (as : List String) (h : as ≠ []) :
    String.intercalate s (as ++ [""]) = String.intercalate s as ++ s := by
  cases as with
  | nil => exact absurd rfl h
  | cons a as =>
    show String.intercalate.go a s (as ++ [""]) = String.intercalate.go a s as ++ s
    exact intercalate_go_append s as a

/-- C18, as stated, fails for `k = 0`: the root name decodes to the single
empty label, the zone key built from it is the empty string, which does not
end in `.`, and a zone keyed `.` is not found. -/
theorem zone_key_counterexample :
    getQuestionDomain (Slice.ofList (wireQuestion [] 0 1 0 1)) = some ([""], [0, 1]) ∧
    String.intercalate "." [""] = "" ∧
    (String.intercalate "." [""]).data.getLast? = none ∧
    getZone zonesRoot [""] = none :=
  ⟨rfl, rfl, rfl, rfl⟩

/-- C18, amended: for every well-formed question section with `k >= 0` labels
whose type code has high byte `00`, `getQuestionDomain` returns `k + 1` labels,
the `k` labels in order followed by one empty label, together with the two
type bytes; consequently, for `k >= 1`, the zone key `getZone` builds by
joining the labels with `.` is the queried name followed by `.`; for `k = 0`
the key is the empty string. -/
theorem labels_and_zone_key (zones : ZoneStore) (labels : List (List Nat)) (t2 c1 c2 : Nat)
    (spare : List Nat) (hok : ∀ l ∈ labels, LabelOk l) :
    getQuestionDomain { elems := wireQuestion labels 0 t2 c1 c2, spare := spare } =
      some (labels.map labelString ++ [""], [0, t2]) ∧
    (labels.map labelString ++ [""]).length = labels.length + 1 ∧
    (labels ≠ [] →
      getZone zones (labels.map labelString ++ [""]) =
        zones.lookup (String.intercalate "." (labels.map labelString) ++ ".")) ∧
    (labels = [] → getZone zones (labels.map labelString ++ [""]) = zones.lookup "") := by
  refine ⟨getQuestionDomain_wire labels hok t2 [c1, c2] spare, by simp, ?_, ?_⟩
  · intro hne
    unfold getZone
    simp only
    rw [intercalate_append_empty "." (labels.map labelString) (by simpa using hne)]
  · intro he
    subst he
    rfl

/-- C18, amended, at the name `example.com`: three labels and the key
`example.com.`. -/
theorem labels_and_zone_key_witness :
    (∀ l ∈ exampleLabels, LabelOk l) ∧
    (getQuestionDomain { elems := wireQuestion exampleLabels 0 1 0 1, spare := [] } =
      some (exampleLabels.map labelString ++ [""], [0, 1]) ∧
    (exampleLabels.map labelString ++ [""]).length = exampleLabels.length + 1 ∧
    (exampleLabels ≠ [] →
      getZone zonesDot (exampleLabels.map labelString ++ [""]) =
        zonesDot.lookup (String.intercalate "." (exampleLabels.map labelString) ++ ".")) ∧
    (exampleLabels = [] →
      getZone zonesDot (exampleLabels.map labelString ++ [""]) = zonesDot.lookup "")) ∧
    String.intercalate "." (exampleLabels.map labelString) ++ "." = "example.com." :=
  ⟨by decide, labels_and_zone_key zonesDot exampleLabels 1 0 1 [] (by decide), rfl⟩

/-! ## The 14-byte response -/

/-- The response when the type assertion of `getRecs` is not reached or fails
(no zone is keyed by the joined labels, or that zone holds no
`[]map[string]interface{}` under the tag of the type bytes): the 12-byte
header with answer count `00 00` followed by the two bytes `00 01`. -/
theorem response_without_record_slice (zones : ZoneStore) (data q : Slice) (resp : List Nat)
    (domain : List String) (qt : List Nat)
    (h : buildResponse zones data = some resp)
    (hq : data.sliceFrom 12 = some q)
    (hd : getQuestionDomain q = some (domain, qt))
    (hno : ∀ zone rs, getZone zones domain = some zone →
      zone.lookup (tagOf qt) ≠ some (GoVal.recs rs)) :
    ∃ flags, getFlags (Slice.ofList ((data.elems.drop 2).take 2)) = some flags ∧
      resp = (data.elems.take 2 ++ flags ++ [0, 1] ++ [0, 0] ++ [0, 0] ++ [0, 0]) ++ [0, 1] ∧
      (data.elems.take 2 ++ flags ++ [0, 1] ++ [0, 0] ++ [0, 0] ++ [0, 0]).length = 12 ∧
      resp.length = 14 := by
  have hf : ∀ q2, data.sliceFrom 12 = some q2 → getRecs zones q2 = some ([], "", []) := by
    intro q2 hq2
    rw [hq] at hq2
    injection hq2 with hq2
    subst hq2
    exact getRecs_fallback zones q domain qt hd hno
  obtain ⟨flags, hfl, he, hlen⟩ := response_of_fallback zones data resp h hf
  refine ⟨flags, hfl, he, ?_, hlen⟩
  rw [he] at hlen
  simp only [List.length_append, List.length_cons, List.length_nil] at hlen ⊢
  omega

/-- C19: for every zone store as `loadZones` produces it and every request on
which `buildResponse` returns a response, `getRecs` finds no records (it takes
its fallback return, whether or not a zone is keyed by the joined name and
whatever the type bytes are), and the response is exactly 14 bytes: the 12-byte
header with answer count `00 00` followed by the two bytes `00 01`; none of the
label bytes of the queried name appear in the question section. -/
theorem short_response (zones : ZoneStore) (data : Slice) (resp : List Nat)
    (hj : storeJson zones = true) (h : buildResponse zones data = some resp) :
    ∃ flags q,
      getFlags (Slice.ofList ((data.elems.drop 2).take 2)) = some flags ∧
      data.sliceFrom 12 = some q ∧ getRecs zones q = some ([], "", []) ∧
      resp = (data.elems.take 2 ++ flags ++ [0, 1] ++ [0, 0] ++ [0, 0] ++ [0, 0]) ++ [0, 1] ∧
      (data.elems.take 2 ++ flags ++ [0, 1] ++ [0, 0] ++ [0, 0] ++ [0, 0]).length = 12 ∧
      resp.length = 14 := by
  obtain ⟨_, q, records, tag, domain, _, _, _, _, hq, hr, _, _⟩ :=
    buildResponse_inv zones data resp h
  have hfall : getRecs zones q = some ([], "", []) := by
    cases hd : getQuestionDomain q with
    | none => rw [getRecs_none zones q hd] at hr; exact absurd hr (by simp)
    | some d =>
      obtain ⟨dom, qt⟩ := d
      exact getRecs_fallback zones q dom qt hd
        fun zone rs hz => storeJson_no_recs zones hj dom zone _ rs hz
  have hf : ∀ q2, data.sliceFrom 12 = some q2 → getRecs zones q2 = some ([], "", []) := by
    intro q2 hq2
    rw [hq] at hq2
    injection hq2 with hq2
    subst hq2
    exact hfall
  obtain ⟨flags, hfl, he, hlen⟩ := response_of_fallback zones data resp h hf
  refine ⟨flags, q, hfl, hq, hfall, he, ?_, hlen⟩
  rw [he] at hlen
  simp only [List.length_append, List.length_cons, List.length_nil] at hlen ⊢
  omega

/-- C19 at the zone file of origin `example.com.` as `loadZones` decodes it:
the requests for `example.com` with type `00 10` and with type `00 01` both
get the 14-byte response. -/
theorem short_response_witness :
    (storeJson zonesJsonDot = true ∧
      buildResponse zonesJsonDot (mkRequest exampleHeader (wireQuestion exampleLabels 0 16 0 1) [])
        = some [0x12, 0x34, 0x87, 0x80, 0, 1, 0, 0, 0, 0, 0, 0, 0, 1] ∧
      buildResponse zonesJsonDot exampleRequest =
        some [0x12, 0x34, 0x87, 0x80, 0, 1, 0, 0, 0, 0, 0, 0, 0, 1]) ∧
    ∃ flags q,
      getFlags (Slice.ofList (((mkRequest exampleHeader (wireQuestion exampleLabels 0 16 0 1)
        []).elems.drop 2).take 2)) = some flags ∧
      (mkRequest exampleHeader (wireQuestion exampleLabels 0 16 0 1) []).sliceFrom 12 = some q ∧
      getRecs zonesJsonDot q = some ([], "", []) ∧
      [0x12, 0x34, 0x87, 0x80, 0, 1, 0, 0, 0, 0, 0, 0, 0, 1] =
        ((mkRequest exampleHeader (wireQuestion exampleLabels 0 16 0 1) []).elems.take 2 ++ flags ++
          [0, 1] ++ [0, 0] ++ [0, 0] ++ [0, 0]) ++ [0, 1] ∧
      ((mkRequest exampleHeader (wireQuestion exampleLabels 0 16 0 1) []).elems.take 2 ++ flags ++
          [0, 1] ++ [0, 0] ++ [0, 0] ++ [0, 0]).length = 12 ∧
      [0x12, 0x34, 0x87, 0x80, 0, 1, 0, 0, 0, 0, 0, 0, 0, 1].length = 14 :=
  ⟨⟨rfl, rfl, rfl⟩,
    short_response zonesJsonDot
      (mkRequest exampleHeader (wireQuestion exampleLabels 0 16 0 1) []) _ rfl rfl⟩

/-! ## Decode, then encode -/

theorem toNat_ofNat_ascii (b : Nat) (h : b < 128) : (Char.ofNat b).toNat = b := by
  have hv : b.isValidChar := Or.inl (by omega)
  unfold Char.ofNat
  rw [dif_pos hv]
  unfold Char.ofNatAux Char.toNat
  simp [UInt32.toNat]

theorem encodePart_labelString (l : List Nat) (hlen : l.length ≤ 63) (ha : ∀ b ∈ l, b < 128) :
    encodePart (labelString l) = l.length :: l := by
  have hsize : (labelString l).utf8ByteSize = l.length := by
    unfold labelString
    rw [utf8ByteSize_ascii]
    · simp
    · intro c hc
      obtain ⟨b, hb, rfl⟩ := List.mem_map.mp hc
      rw [toNat_ofNat_ascii b (ha b hb)]
      exact ha b hb
  unfold encodePart
  rw [hsize]
  congr 1
  · omega
  · unfold labelString
    simp only [List.map_map]
    conv_rhs => rw [← List.map_id l]
    apply List.map_congr_left
    intro b hb
    simp only [Function.comp_apply, id_eq, toNat_ofNat_ascii b (ha b hb)]
    have := ha b hb
    omega

theorem concat_encodePart_labelString (labels : List (List Nat))
    (hok : ∀ l ∈ labels, LabelOk l) (ha : ∀ l ∈ labels, ∀ b ∈ l, b < 128) :
    concatBytes ((labels.map labelString).map encodePart) = encodeLabels labels := by
  induction labels with
  | nil => rfl
  | cons l ls ih =>
    simp only [List.map_cons, concatBytes, encodeLabels,
      encodePart_labelString l (hok l (List.mem_cons_self _ _)).2.1
        (ha l (List.mem_cons_self _ _)),
      ih (fun x hx => hok x (List.mem_cons_of_mem _ hx))
        (fun x hx => ha x (List.mem_cons_of_mem _ hx))]

/-- C20: for every well-formed question section `q` with type `00 01` and
class `00 01` whose label bytes are all in 1..127, `getQuestionDomain` returns
a label sequence, and `buildQuestion` applied to it and the tag `a` equals `q`
byte for byte. -/
theorem decode_then_encode (labels : List (List Nat)) (spare : List Nat)
    (hok : ∀ l ∈ labels, LabelOk l) (ha : ∀ l ∈ labels, ∀ b ∈ l, b < 128) :
    ∃ domain qt,
      getQuestionDomain { elems := wireQuestion labels 0 1 0 1, spare := spare } =
        some (domain, qt) ∧
      buildQuestion domain "a" = wireQuestion labels 0 1 0 1 := by
  refine ⟨labels.map labelString ++ [""], [0, 1],
    getQuestionDomain_wire labels hok 1 [0, 1] spare, ?_⟩
  have e0 : encodePart "" = [0] := rfl
  rw [buildQuestion_eq, List.map_append, concatBytes_append,
    concat_encodePart_labelString labels hok ha]
  unfold wireQuestion
  simp [concatBytes, e0]

/-- C20 at the question section of `example.com`. -/
theorem decode_then_encode_witness :
    ((∀ l ∈ exampleLabels, LabelOk l) ∧ (∀ l ∈ exampleLabels, ∀ b ∈ l, b < 128)) ∧
    ∃ domain qt,
      getQuestionDomain { elems := wireQuestion exampleLabels 0 1 0 1, spare := [] } =
        some (domain, qt) ∧
      buildQuestion domain "a" = wireQuestion exampleLabels 0 1 0 1 :=
  ⟨⟨by decide, by decide⟩, decode_then_encode exampleLabels [] (by decide) (by decide)⟩

end DnsServer
